import Mathlib

/-!
# Habit completion and streak consistency (`src/server.js`)

A shallow embedding of the two route handlers

* `POST /api/habits/:id/complete`   (`server.js` lines 362-450)
* `POST /api/habits/:id/uncomplete` (`server.js` lines 453-558)

over an explicit database state.  The three Prisma tables the handlers touch
(`user`, `habit`, `completion`) are lists of rows; every `await prisma...` call
is one pure step on that state, in the order the handler performs them.

Conventions of the embedding:

* record identifiers (strings in the service) are natural numbers;
* instants are milliseconds since the epoch, the server's local time zone is
  UTC without daylight saving, so `setHours(0, 0, 0, 0)` rounds down to a
  multiple of `msPerDay` and `setDate(getDate() + 1)` adds `msPerDay`;
* `streak`, `currentStreak` and `longestStreak` are unbounded integers;
* `findFirst` without `orderBy` returns the first matching row in table order.
-/

namespace HabitTracker

/-! ## Data model -/

/-- Row of the `habit` table, restricted to the columns the handlers read. -/
structure Habit where
  id : Nat
  userId : Nat
  weeklySchedule : List Bool
  streak : Int
deriving DecidableEq

/-- Row of the `completion` table. -/
structure Completion where
  id : Nat
  habitId : Nat
  userId : Nat
  completedAt : Nat
deriving DecidableEq

/-- Row of the `user` table, restricted to the streak columns. -/
structure User where
  id : Nat
  currentStreak : Int
  longestStreak : Int
deriving DecidableEq

/-- The database state seen by the handlers. -/
structure Db where
  users : List User
  habits : List Habit
  completions : List Completion
deriving DecidableEq

/-- What a handler answers: 200 with the habit, 404, or 500 from the `catch`. -/
inductive Response where
  | ok (habit : Option Habit)
  | notFound
  | serverError
deriving DecidableEq

/-- The three persistence writes of a handler at which a storage error can be
raised (each `await prisma...` call commits on its own). -/
inductive Step where
  | ledger
  | habitUpdate
  | userUpdate
deriving DecidableEq

/-! ## Calendar -/

def msPerDay : Nat := 86400000

/-- `date.setHours(0, 0, 0, 0)`. -/
def startOfDay (t : Nat) : Nat := t - t % msPerDay

/-- `date.setDate(date.getDate() + 1)`. -/
def addDay (t : Nat) : Nat := t + msPerDay

/-- `date.getDay()`: 0 = Sunday; the epoch was a Thursday. -/
def getDay (t : Nat) : Nat := (t / msPerDay + 4) % 7

/-! ## Table operations -/

/-- `prisma.habit.findFirst({ where: { id, userId } })`. -/
def findHabit (db : Db) (habitId userId : Nat) : Option Habit :=
  db.habits.find? (fun h => h.id == habitId && h.userId == userId)

/-- `prisma.habit.findUnique({ where: { id } })`. -/
def findHabitById (db : Db) (habitId : Nat) : Option Habit :=
  db.habits.find? (fun h => h.id == habitId)

/-- `prisma.user.findUnique({ where: { id } })`. -/
def findUser (db : Db) (userId : Nat) : Option User :=
  db.users.find? (fun u => u.id == userId)

/-- `prisma.completion.findFirst({ where: { habitId, completedAt: { gte, lt } } })`. -/
def findCompletion (db : Db) (habitId gte lt : Nat) : Option Completion :=
  db.completions.find?
    (fun c => c.habitId == habitId && decide (gte ≤ c.completedAt) && decide (c.completedAt < lt))

/-- Modelled from the spec: the Prisma schema is not part of the sources, so the
identifier given to a new completion row is taken to be one not yet in the table. -/
def nextCompletionId (db : Db) : Nat :=
  (db.completions.map (fun c => c.id)).foldr max 0 + 1

/-- `prisma.completion.create({ data: { habitId, userId } })`; `createdAt` is the
instant the store stamps on the new row as its `completedAt`. -/
def createCompletion (db : Db) (habitId userId createdAt : Nat) : Db :=
  { db with
    completions := db.completions ++
      [{ id := nextCompletionId db, habitId := habitId, userId := userId,
         completedAt := createdAt }] }

/-- `prisma.completion.delete({ where: { id } })`. -/
def deleteCompletion (db : Db) (completionId : Nat) : Db :=
  { db with completions := db.completions.filter (fun c => c.id != completionId) }

/-- `prisma.habit.update({ where: { id }, data: { streak: { increment: 1 } } })`. -/
def incrementStreak (db : Db) (habitId : Nat) : Db :=
  { db with
    habits := db.habits.map
      (fun h => if h.id = habitId then { h with streak := h.streak + 1 } else h) }

/-- `prisma.habit.update({ where: { id }, data: { streak: { decrement: 1 } } })`. -/
def decrementStreak (db : Db) (habitId : Nat) : Db :=
  { db with
    habits := db.habits.map
      (fun h => if h.id = habitId then { h with streak := h.streak - 1 } else h) }

/-- The `prisma.user.update` of both handlers: `currentStreak` becomes
`newCurrentStreak`, `longestStreak` becomes
`newCurrentStreak > user.longestStreak ? newCurrentStreak : user.longestStreak`. -/
def updateUserStreak (db : Db) (userId : Nat) (newCurrentStreak longestStreak : Int) : Db :=
  { db with
    users := db.users.map
      (fun u => if u.id = userId then
          { u with currentStreak := newCurrentStreak,
                   longestStreak := if newCurrentStreak > longestStreak
                                    then newCurrentStreak else longestStreak }
        else u) }

/-- `allHabits.filter((habit) => habit.weeklySchedule[day] === true)` over
`prisma.habit.findMany({ where: { userId } })`. -/
def todaysHabits (db : Db) (userId day : Nat) : List Habit :=
  (db.habits.filter (fun h => h.userId == userId)).filter
    (fun h => h.weeklySchedule[day]? == some true)

/-- The `completedToday` flags: `!!completion` of the window lookup, per habit. -/
def habitsWithStatus (db : Db) (habits : List Habit) (gte lt : Nat) : List Bool :=
  habits.map (fun h => (findCompletion db h.id gte lt).isSome)

/-! ## The handlers -/

/-- `POST /api/habits/:id/complete`.  `createdAt` is the instant stored in the
new completion row, `now` the `new Date()` of line 390.  `fault` names the write
that raises a storage error, if any. -/
def completeHabitWith (fault : Option Step) (db : Db) (userId habitId createdAt now : Nat) :
    Response × Db :=
  match findHabit db habitId userId with
  | none => (Response.notFound, db)
  | some habit =>
    if fault = some Step.ledger then (Response.serverError, db) else
    let db1 := createCompletion db habit.id userId createdAt
    if fault = some Step.habitUpdate then (Response.serverError, db1) else
    let db2 := incrementStreak db1 habit.id
    let updatedHabit := findHabitById db2 habit.id
    let todays := todaysHabits db2 userId (getDay now)
    let today := startOfDay now
    let tomorrow := addDay today
    let checkHabitStatus := (habitsWithStatus db2 todays today tomorrow).any (fun d => d == false)
    match findUser db2 userId with
    | none => (Response.ok updatedHabit, db2)
    | some user =>
      if !checkHabitStatus then
        if fault = some Step.userUpdate then (Response.serverError, db2) else
        (Response.ok updatedHabit,
          updateUserStreak db2 userId (user.currentStreak + 1) user.longestStreak)
      else (Response.ok updatedHabit, db2)

/-- The handler without storage errors. -/
def completeHabit (db : Db) (userId habitId createdAt now : Nat) : Response × Db :=
  completeHabitWith none db userId habitId createdAt now

/-- Lines 496-551 of `POST /api/habits/:id/uncomplete`: re-read the habit and
the user, count the due habits with a completion, update the user.  `tomorrow`
is advanced a second time (line 516) before the lookups. -/
def uncompleteUserStreak (fault : Option Step) (db : Db) (userId habitId today tomorrow : Nat) :
    Response × Db :=
  let updatedHabit := findHabitById db habitId
  let todays := todaysHabits db userId (getDay today)
  let today2 := startOfDay today
  let tomorrow2 := addDay tomorrow
  let checkCount :=
    ((habitsWithStatus db todays today2 tomorrow2).filter (fun d => d == true)).length
  match findUser db userId with
  | none => (Response.ok updatedHabit, db)
  | some user =>
    if checkCount = 1 then
      if fault = some Step.userUpdate then (Response.serverError, db) else
      (Response.ok updatedHabit,
        updateUserStreak db userId (user.currentStreak - 1) user.longestStreak)
    else (Response.ok updatedHabit, db)

/-- `POST /api/habits/:id/uncomplete`. -/
def uncompleteHabitWith (fault : Option Step) (db : Db) (userId habitId now : Nat) :
    Response × Db :=
  match findHabit db habitId userId with
  | none => (Response.notFound, db)
  | some habit =>
    let today := startOfDay now
    let tomorrow := addDay today
    match findCompletion db habit.id today tomorrow with
    | some completion =>
      if fault = some Step.ledger then (Response.serverError, db) else
      let db1 := deleteCompletion db completion.id
      if habit.streak > 0 then
        if fault = some Step.habitUpdate then (Response.serverError, db1) else
        uncompleteUserStreak fault (decrementStreak db1 habit.id) userId habit.id today tomorrow
      else uncompleteUserStreak fault db1 userId habit.id today tomorrow
    | none => uncompleteUserStreak fault db userId habit.id today tomorrow

/-- The handler without storage errors. -/
def uncompleteHabit (db : Db) (userId habitId now : Nat) : Response × Db :=
  uncompleteHabitWith none db userId habitId now

/-- The database after the two unconditional writes of the completion handler. -/
def recorded (db : Db) (userId habitId createdAt : Nat) : Db :=
  incrementStreak (createCompletion db habitId userId createdAt) habitId

/-! ## Notions of the specification -/

/-- `isDueToday` of the specification: the schedule entry of today's weekday is `true`. -/
def isDueToday (h : Habit) (now : Nat) : Bool :=
  h.weeklySchedule[getDay now]? == some true

/-- `hasCompletionToday` of the specification: the ledger holds a completion of
the habit inside the day window `[midnight, next midnight)` of `now`. -/
def hasCompletionToday (db : Db) (habitId now : Nat) : Bool :=
  db.completions.any (fun c =>
    c.habitId == habitId && decide (startOfDay now ≤ c.completedAt)
      && decide (c.completedAt < startOfDay now + msPerDay))

/-- Fully satisfied day of the specification: every habit of the user that is due
on the weekday of `now` has a completion inside the day window of `now`. -/
def fullySatisfied (db : Db) (userId now : Nat) : Bool :=
  db.habits.all (fun h => !(h.userId == userId && isDueToday h now) || hasCompletionToday db h.id now)

/-- The user row with its aggregate advanced by one day, as the specification
words it: `currentStreak + 1` and `max longestStreak (currentStreak + 1)`. -/
def advanced (u : User) : User :=
  { u with currentStreak := u.currentStreak + 1,
           longestStreak := max u.longestStreak (u.currentStreak + 1) }

/-- Every habit identifier occurs once in the `habit` table (primary key). -/
def habitIdsUnique (db : Db) : Prop :=
  (db.habits.map (fun h => h.id)).Nodup

/-- The aggregate ordering `longestStreak >= currentStreak`, for every user. -/
def streakOrdered (db : Db) : Prop :=
  ∀ u ∈ db.users, u.currentStreak ≤ u.longestStreak

/-- The per-habit bound `habit.streak >= 0`, for every habit. -/
def streakNonneg (db : Db) : Prop :=
  ∀ h ∈ db.habits, 0 ≤ h.streak

/-! ## Sequences of calls -/

/-- A call of one of the two handlers. -/
inductive Op where
  | complete (userId habitId createdAt now : Nat)
  | uncomplete (userId habitId now : Nat)
deriving DecidableEq

/-- The database after one call. -/
def applyOp (db : Db) : Op → Db
  | Op.complete userId habitId createdAt now => (completeHabit db userId habitId createdAt now).2
  | Op.uncomplete userId habitId now => (uncompleteHabit db userId habitId now).2

/-- The database after a finite sequence of calls, first call first. -/
def run (db : Db) (ops : List Op) : Db :=
  ops.foldl applyOp db

/-- `prisma.user.create` of the registration handler (lines 88-96): both streaks 0. -/
def registerUser (db : Db) (id : Nat) : Db :=
  { db with users := db.users ++ [{ id := id, currentStreak := 0, longestStreak := 0 }] }

/-- `prisma.habit.create` of the habit creation handler (lines 245-255): streak 0. -/
def createHabit (db : Db) (id userId : Nat) (weeklySchedule : List Bool) : Db :=
  { db with
    habits := db.habits ++
      [{ id := id, userId := userId, weeklySchedule := weeklySchedule, streak := 0 }] }

/-! ## Two completion requests in flight

The completion handler yields at each `await`.  A request is cut at its awaited
Prisma calls: one step is one call together with the synchronous code up to the
next call.  The lookups inside `Promise.all` (lines 404-419) are one step each,
in the order of `todaysHabits`.  Two requests share the database; a schedule
says which request takes the next step. -/

/-- The arguments of one completion request: `req.user.id`, `req.params.id`, the
instant stamped on the new completion row and the `new Date()` of line 390. -/
structure Call where
  userId : Nat
  habitId : Nat
  createdAt : Nat
  now : Nat
deriving DecidableEq

/-- Where a completion request stands, with the local variables it holds before
its next awaited call. -/
inductive Request where
  /-- Before `prisma.habit.findFirst` (line 364). -/
  | start
  /-- Before `prisma.completion.create` (line 376). -/
  | found (habit : Habit)
  /-- Before `prisma.habit.update` (line 384). -/
  | created (habit : Habit)
  /-- Before `prisma.habit.findMany` (line 391). -/
  | updated (updatedHabit : Option Habit)
  /-- Inside `Promise.all`: the habits still to look up and the flags so far. -/
  | looking (updatedHabit : Option Habit) (pending : List Habit) (habitsWithStatus : List Bool)
  /-- Before `prisma.user.findUnique` (line 425). -/
  | checked (updatedHabit : Option Habit) (checkHabitStatus : Bool)
  /-- Before `prisma.user.update` (line 431). -/
  | userRead (updatedHabit : Option Habit) (user : User)
  /-- The response has been sent. -/
  | done (response : Response)
deriving DecidableEq

/-- The request has answered. -/
def Request.isDone : Request → Bool
  | Request.done _ => true
  | _ => false

/-- The state after the lookups that are left: more lookups, or the value of
`habitsWithStatus.some((data) => data.completedToday === false)`. -/
def afterLookups (updatedHabit : Option Habit) (pending : List Habit)
    (habitsWithStatus : List Bool) : Request :=
  match pending with
  | [] => Request.checked updatedHabit (habitsWithStatus.any (fun d => d == false))
  | h :: rest => Request.looking updatedHabit (h :: rest) habitsWithStatus

/-- One awaited call of the completion handler, on the current database. -/
def stepRequest (c : Call) (db : Db) : Request → Db × Request
  | Request.start =>
    match findHabit db c.habitId c.userId with
    | none => (db, Request.done Response.notFound)
    | some habit => (db, Request.found habit)
  | Request.found habit =>
    (createCompletion db habit.id c.userId c.createdAt, Request.created habit)
  | Request.created habit =>
    (incrementStreak db habit.id,
      Request.updated (findHabitById (incrementStreak db habit.id) habit.id))
  | Request.updated updatedHabit =>
    (db, afterLookups updatedHabit (todaysHabits db c.userId (getDay c.now)) [])
  | Request.looking updatedHabit [] flags =>
    (db, afterLookups updatedHabit [] flags)
  | Request.looking updatedHabit (h :: rest) flags =>
    (db, afterLookups updatedHabit rest
      (flags ++ habitsWithStatus db [h] (startOfDay c.now) (addDay (startOfDay c.now))))
  | Request.checked updatedHabit checkHabitStatus =>
    match findUser db c.userId with
    | none => (db, Request.done (Response.ok updatedHabit))
    | some user =>
      if !checkHabitStatus then (db, Request.userRead updatedHabit user)
      else (db, Request.done (Response.ok updatedHabit))
  | Request.userRead updatedHabit user =>
    (updateUserStreak db c.userId (user.currentStreak + 1) user.longestStreak,
      Request.done (Response.ok updatedHabit))
  | Request.done response => (db, Request.done response)

/-- The shared database and the two requests in flight. -/
structure Race where
  db : Db
  first : Request
  second : Request
deriving DecidableEq

/-- One step of the race: `true` lets the first request take its next call,
`false` the second. -/
def stepRace (a b : Call) (s : Race) (pick : Bool) : Race :=
  if pick then
    { s with db := (stepRequest a s.db s.first).1, first := (stepRequest a s.db s.first).2 }
  else
    { s with db := (stepRequest b s.db s.second).1, second := (stepRequest b s.db s.second).2 }

/-- The race after a schedule, both requests starting at their first call. -/
def runRace (a b : Call) (db : Db) (schedule : List Bool) : Race :=
  schedule.foldl (stepRace a b) ⟨db, Request.start, Request.start⟩

/-- One request alone, for a number of steps. -/
def runAlone (c : Call) : Nat → Db × Request → Db × Request
  | 0, s => s
  | n + 1, s => runAlone c n (stepRequest c s.1 s.2)

/-- The columns of a habit row that no handler writes. -/
def habitKey (h : Habit) : Nat × Nat × List Bool :=
  (h.id, h.userId, h.weeklySchedule)

/-- The request has looked up a due habit and found no completion of today. -/
def Request.failed : Request → Bool
  | Request.looking _ _ flags => flags.any (fun d => d == false)
  | Request.checked _ check => check
  | _ => false

/-- What holds of the user row during a race that started at `currentStreak = c`:
the row exists, `currentStreak` is `c`, `c + 1` or `c + 2`, and its value is tied
to which requests have answered (`dX`, `dY`) and which have seen an incomplete
due habit (`fX`, `fY`). -/
def aggInv (user : Option User) (c : Int) (dX fX dY fY : Bool) : Prop :=
  (∃ u, user = some u ∧ c ≤ u.currentStreak ∧ u.currentStreak ≤ c + 2 ∧
    (u.currentStreak = c + 2 → dX = true ∧ dY = true) ∧
    (c + 1 ≤ u.currentStreak → dX = true ∨ dY = true) ∧
    (dX = true → dY = true → c + 1 ≤ u.currentStreak) ∧
    (fX = true → dY = true → c + 1 ≤ u.currentStreak) ∧
    (fY = true → dX = true → c + 1 ≤ u.currentStreak)) ∧
  ¬(fX = true ∧ fY = true)

/-- What holds of the local variables of the request for habit `i`, the other
request being for habit `j`: once its completion is written the ledger has a
completion of `i` today, the habits it still looks up are `i` or `j`, and the
user row it has read has `currentStreak` `c`, or `c + 1` when the other request
has answered. -/
def localInv (db : Db) (c : Int) (tref i j : Nat) (otherDone : Bool) : Request → Prop
  | Request.start => True
  | Request.found h => h.id = i
  | Request.created h => h.id = i ∧ hasCompletionToday db i tref = true
  | Request.updated _ => hasCompletionToday db i tref = true
  | Request.looking _ pending _ =>
    hasCompletionToday db i tref = true ∧ ∀ h ∈ pending, h.id = i ∨ h.id = j
  | Request.checked _ _ => hasCompletionToday db i tref = true
  | Request.userRead _ v =>
    hasCompletionToday db i tref = true ∧ c ≤ v.currentStreak ∧ v.currentStreak ≤ c + 1 ∧
      (v.currentStreak = c + 1 → otherDone = true)
  | Request.done _ => hasCompletionToday db i tref = true

/-- The invariant of a race of the requests `X` (habit `i`) and `Y` (habit `j`)
of user `uid` that started on `db0` with `currentStreak = c`. -/
structure RaceInv (db0 : Db) (uid : Nat) (c : Int) (tref i j : Nat) (X Y : Request) (db : Db) :
    Prop where
  keys : db.habits.map habitKey = db0.habits.map habitKey
  agg : aggInv (findUser db uid) c X.isDone X.failed Y.isDone Y.failed
  own : localInv db c tref i j Y.isDone X
  other : localInv db c tref j i X.isDone Y

/-- A bound on the calls a request still has to make, in a database with at most
`n` habits: three calls before `findMany`, one lookup per due habit, the user
lookup and the user update. -/
def stepsLeft (n : Nat) : Request → Nat
  | Request.start => n + 7
  | Request.found _ => n + 6
  | Request.created _ => n + 5
  | Request.updated _ => n + 4
  | Request.looking _ pending _ => pending.length + 3
  | Request.checked _ _ => 2
  | Request.userRead _ _ => 1
  | Request.done _ => 0

/-! ## Concrete states -/

/-- A schedule that is due on every weekday. -/
def everyDay : List Bool := [true, true, true, true, true, true, true]

/-- A schedule that is due on no weekday. -/
def noDay : List Bool := [false, false, false, false, false, false, false]

/-- An instant: 2023-11-14 22:13:20 UTC, a Tuesday. -/
def t0 : Nat := 1700000000000

/-- A newly registered user 1 with one new habit 10, due every day. -/
def oneDue : Db := createHabit (registerUser ⟨[], [], []⟩ 1) 10 1 everyDay

/-- User 1 with two new habits 10 and 11, both due every day. -/
def twoDue : Db := createHabit oneDue 11 1 everyDay

/-- User 1 with three new habits 10, 11 and 12, all due every day. -/
def threeDue : Db := createHabit twoDue 12 1 everyDay

/-- User 1 with one new habit 10 that is due on no day. -/
def noneDue : Db := createHabit (registerUser ⟨[], [], []⟩ 1) 10 1 noDay

/-- All three habits of `threeDue` completed at `t0`. -/
def threeDone : Db :=
  run threeDue [Op.complete 1 10 t0 t0, Op.complete 1 11 t0 t0, Op.complete 1 12 t0 t0]

/-- Habit 10 of `twoDue` completed at `t0`, habit 11 not. -/
def oneOfTwoDone : Db := run twoDue [Op.complete 1 10 t0 t0]

/-- Habit 10 of `oneDue` completed at `t0`. -/
def oneDone : Db := run oneDue [Op.complete 1 10 t0 t0]

/-- The request of user 1 to complete habit 10 at `t0`. -/
def call10 : Call := ⟨1, 10, t0, t0⟩

/-- The request of user 1 to complete habit 11 at `t0`. -/
def call11 : Call := ⟨1, 11, t0, t0⟩

/-- Both requests write their completion and habit streak first; then the first
request looks up the statuses and updates the user, then the second does. -/
def writesFirst : List Bool :=
  [true, true, true, false, false, false,
   true, true, true, true, true, false, false, false, false, false]

/-- The first request runs to its answer, then the second. -/
def oneAfterTheOther : List Bool :=
  [true, true, true, true, true, true, true, true,
   false, false, false, false, false, false, false, false]

/-! ## Lemmas on the tables -/

theorem findCompletion_isSome (db : Db) (habitId now : Nat) :
    (findCompletion db habitId (startOfDay now) (addDay (startOfDay now))).isSome
      = hasCompletionToday db habitId now := by
  unfold findCompletion hasCompletionToday addDay
  induction db.completions with
  | nil => rfl
  | cons c cs ih =>
    simp only [List.find?_cons, List.any_cons]
    cases hc : (c.habitId == habitId && decide (startOfDay now ≤ c.completedAt)
      && decide (c.completedAt < startOfDay now + msPerDay)) with
    | true => simp
    | false => simpa using ih

theorem any_false_filter {α : Type} (p q f : α → Bool) (l : List α) :
    (((l.filter p).filter q).map f).any (fun d => d == false)
      = !(l.all fun h => !(p h && q h) || f h) := by
  induction l with
  | nil => rfl
  | cons h hs ih =>
    rw [List.all_cons, Bool.not_and, ← ih]
    cases h1 : p h <;> cases h2 : q h <;> cases h3 : f h <;>
      simp only [List.filter_cons, List.map_cons, List.any_cons, h1, h2, h3, if_true, if_false,
        Bool.false_eq_true] <;> rfl

theorem status_any_false (db : Db) (userId now : Nat) :
    (habitsWithStatus db (todaysHabits db userId (getDay now)) (startOfDay now)
        (addDay (startOfDay now))).any (fun d => d == false)
      = !fullySatisfied db userId now := by
  unfold habitsWithStatus todaysHabits fullySatisfied isDueToday
  simp only [findCompletion_isSome]
  exact any_false_filter _ _ _ _

theorem find_user_map (us : List User) (userId : Nat) (g : User → User)
    (hg : ∀ u, (g u).id = u.id) (user : User)
    (hu : us.find? (fun u => u.id == userId) = some user) :
    (us.map (fun u => if u.id = userId then g u else u)).find? (fun u => u.id == userId)
      = some (g user) := by
  induction us with
  | nil => simp at hu
  | cons u us ih =>
    simp only [List.map_cons, List.find?_cons] at hu ⊢
    by_cases h : u.id = userId
    · subst h
      have hb2 : ((g u).id == u.id) = true := by simp [hg]
      simp only [beq_self_eq_true, if_true, hb2] at hu ⊢
      cases hu; rfl
    · have hb : (u.id == userId) = false := by simpa using h
      simp only [h, hb, if_false] at hu ⊢
      exact ih hu

theorem findUser_updateUserStreak (db : Db) (userId : Nat) (c l : Int) (user : User)
    (hu : findUser db userId = some user) :
    findUser (updateUserStreak db userId c l) userId
      = some { user with currentStreak := c, longestStreak := if c > l then c else l } :=
  find_user_map db.users userId
    (fun u => { u with currentStreak := c, longestStreak := if c > l then c else l })
    (fun _ => rfl) user hu

theorem findHabit_id (db : Db) (habitId userId : Nat) (habit : Habit)
    (hh : findHabit db habitId userId = some habit) :
    habit.id = habitId ∧ habit.userId = userId ∧ habit ∈ db.habits := by
  unfold findHabit at hh
  have h1 := List.find?_some hh
  have h2 := List.mem_of_find?_eq_some hh
  simp only [Bool.and_eq_true, beq_iff_eq] at h1
  exact ⟨h1.1, h1.2, h2⟩

/-- Normal form of the completion handler when the habit is found. -/
theorem completeHabit_found (db : Db) (userId habitId createdAt now : Nat) (habit : Habit)
    (hh : findHabit db habitId userId = some habit) :
    completeHabit db userId habitId createdAt now =
      (Response.ok (findHabitById (recorded db userId habitId createdAt) habitId),
        match findUser db userId with
        | none => recorded db userId habitId createdAt
        | some user =>
          if fullySatisfied (recorded db userId habitId createdAt) userId now then
            updateUserStreak (recorded db userId habitId createdAt) userId
              (user.currentStreak + 1) user.longestStreak
          else recorded db userId habitId createdAt) := by
  obtain ⟨hid, -, -⟩ := findHabit_id db habitId userId habit hh
  unfold completeHabit completeHabitWith
  rw [hh]
  simp only [hid, status_any_false, Bool.not_not]
  have hu : findUser (incrementStreak (createCompletion db habitId userId createdAt) habitId) userId
      = findUser db userId := rfl
  rw [hu]
  unfold recorded
  cases findUser db userId with
  | none => simp
  | some user =>
    cases hfs : fullySatisfied (incrementStreak (createCompletion db habitId userId createdAt) habitId)
      userId now <;> simp

theorem hasCompletionToday_createCompletion (db : Db) (habitId userId createdAt x now : Nat) :
    hasCompletionToday (createCompletion db habitId userId createdAt) x now
      = (hasCompletionToday db x now ||
          (habitId == x && decide (startOfDay now ≤ createdAt)
            && decide (createdAt < startOfDay now + msPerDay))) := by
  unfold hasCompletionToday createCompletion
  simp only [List.any_append, List.any_cons, List.any_nil, Bool.or_false]

theorem fullySatisfied_recorded (db : Db) (userId habitId createdAt uid now : Nat) :
    fullySatisfied (recorded db userId habitId createdAt) uid now
      = db.habits.all (fun h => !(h.userId == uid && isDueToday h now) ||
          (hasCompletionToday db h.id now ||
            (habitId == h.id && decide (startOfDay now ≤ createdAt)
              && decide (createdAt < startOfDay now + msPerDay)))) := by
  have hc : ∀ x, hasCompletionToday (recorded db userId habitId createdAt) x now
      = hasCompletionToday (createCompletion db habitId userId createdAt) x now := fun _ => rfl
  unfold fullySatisfied
  simp only [hc, hasCompletionToday_createCompletion]
  show ((db.habits.map _).all _) = _
  rw [List.all_map]
  congr 1
  funext h
  simp only [Function.comp]
  by_cases hid : h.id = habitId <;> simp [hid, isDueToday]

theorem div_startOfDay (t : Nat) : startOfDay t / msPerDay = t / msPerDay := by
  unfold startOfDay
  exact (Nat.div_eq_sub_mod_div).symm

theorem getDay_of_startOfDay_eq (s t : Nat) (h : startOfDay s = startOfDay t) :
    getDay s = getDay t := by
  unfold getDay
  rw [← div_startOfDay s, ← div_startOfDay t, h]

theorem fullySatisfied_same_day (db : Db) (userId s t : Nat) (h : startOfDay s = startOfDay t) :
    fullySatisfied db userId s = fullySatisfied db userId t := by
  unfold fullySatisfied isDueToday hasCompletionToday
  rw [getDay_of_startOfDay_eq s t h, h]

theorem max_eq_ite (c l : Int) : (if c > l then c else l) = max l c := by
  rcases le_or_lt c l with h | h
  · rw [if_neg (not_lt.mpr h), max_eq_left h]
  · rw [if_pos h, max_eq_right h.le]

theorem findHabit_recorded_isSome (db : Db) (userId habitId createdAt hid uid : Nat) (habit : Habit)
    (hh : findHabit db hid uid = some habit) :
    ∃ habit2, findHabit (recorded db userId habitId createdAt) hid uid = some habit2 := by
  obtain ⟨h1, h2, h3⟩ := findHabit_id db hid uid habit hh
  cases hf : findHabit (recorded db userId habitId createdAt) hid uid with
  | some x => exact ⟨x, rfl⟩
  | none =>
    exfalso
    unfold findHabit at hf
    rw [List.find?_eq_none] at hf
    have hm : (if habit.id = habitId then { habit with streak := habit.streak + 1 } else habit)
        ∈ (recorded db userId habitId createdAt).habits :=
      List.mem_map_of_mem _ h3
    have hg : (if habit.id = habitId then { habit with streak := habit.streak + 1 } else habit).id
          = hid ∧
        (if habit.id = habitId then { habit with streak := habit.streak + 1 } else habit).userId
          = uid := by
      split <;> exact ⟨h1, h2⟩
    have := hf _ hm
    simp [hg.1, hg.2] at this

theorem advanced_eq (user : User) :
    ({ user with currentStreak := user.currentStreak + 1,
                 longestStreak := if user.currentStreak + 1 > user.longestStreak
                                  then user.currentStreak + 1 else user.longestStreak } : User)
      = advanced user := by
  unfold advanced
  rw [max_eq_ite]

/-- Effect of the completion handler on the user row, when habit and user exist. -/
theorem completeHabit_user (db : Db) (userId habitId createdAt now : Nat) (habit : Habit)
    (user : User) (hh : findHabit db habitId userId = some habit)
    (hu : findUser db userId = some user) :
    fullySatisfied (completeHabit db userId habitId createdAt now).2 userId now
        = fullySatisfied (recorded db userId habitId createdAt) userId now ∧
    findUser (completeHabit db userId habitId createdAt now).2 userId
        = if fullySatisfied (recorded db userId habitId createdAt) userId now
          then some (advanced user) else some user := by
  rw [completeHabit_found db userId habitId createdAt now habit hh, hu]
  simp only
  cases hfs : fullySatisfied (recorded db userId habitId createdAt) userId now with
  | false => exact ⟨hfs, hu⟩
  | true =>
    simp only [if_true]
    refine ⟨hfs, ?_⟩
    have hu2 : findUser (recorded db userId habitId createdAt) userId = some user := hu
    rw [findUser_updateUserStreak _ _ _ _ user hu2, advanced_eq]

/-- C1. The completion handler advances the aggregate exactly when, after the
completion is recorded, every habit of the user due today has a completion in
today's window: then `currentStreak` becomes `currentStreak + 1` and
`longestStreak` becomes `max longestStreak (currentStreak + 1)`; otherwise both
are unchanged.  With exactly two due habits, both incomplete, completing the
first leaves the aggregate unchanged and completing the second advances it. -/
theorem completeHabit_aggregate_rule
    (db : Db) (userId habitId createdAt now : Nat) (habit : Habit) (user : User)
    (hh : findHabit db habitId userId = some habit) (hu : findUser db userId = some user) :
    (fullySatisfied (completeHabit db userId habitId createdAt now).2 userId now = true →
      findUser (completeHabit db userId habitId createdAt now).2 userId = some (advanced user)) ∧
    (fullySatisfied (completeHabit db userId habitId createdAt now).2 userId now = false →
      findUser (completeHabit db userId habitId createdAt now).2 userId = some user) ∧
    (∀ (habitId2 createdAt2 now2 : Nat) (habit2 : Habit),
      findHabit db habitId2 userId = some habit2 → habitId ≠ habitId2 →
      isDueToday habit now = true → isDueToday habit2 now = true →
      (∀ h ∈ db.habits, h.userId = userId → isDueToday h now = true →
        h.id = habitId ∨ h.id = habitId2) →
      hasCompletionToday db habitId now = false → hasCompletionToday db habitId2 now = false →
      startOfDay now ≤ createdAt → createdAt < startOfDay now + msPerDay →
      startOfDay now2 = startOfDay now →
      startOfDay now ≤ createdAt2 → createdAt2 < startOfDay now + msPerDay →
      findUser (completeHabit db userId habitId createdAt now).2 userId = some user ∧
      findUser (completeHabit (completeHabit db userId habitId createdAt now).2
        userId habitId2 createdAt2 now2).2 userId = some (advanced user)) := by
  obtain ⟨hfs, hfu⟩ := completeHabit_user db userId habitId createdAt now habit user hh hu
  refine ⟨fun h => ?_, fun h => ?_, ?_⟩
  · rw [hfu, ← hfs, h]; rfl
  · rw [hfu, ← hfs, h]; rfl
  · intro habitId2 createdAt2 now2 habit2 hh2 hne _ hdue2 honly _ hc2 ht1 ht2 hday ht3 ht4
    obtain ⟨hid2, huid2, hmem2⟩ := findHabit_id db habitId2 userId habit2 hh2
    -- after the first completion the second habit is still incomplete
    have hfs1 : fullySatisfied (recorded db userId habitId createdAt) userId now = false := by
      rw [fullySatisfied_recorded, List.all_eq_false]
      refine ⟨habit2, hmem2, ?_⟩
      simp [huid2, hdue2, hid2, hc2, hne]
    have hdb1 : (completeHabit db userId habitId createdAt now).2
        = recorded db userId habitId createdAt := by
      rw [completeHabit_found db userId habitId createdAt now habit hh, hu]
      simp [hfs1]
    have hu1 : findUser (recorded db userId habitId createdAt) userId = some user := hu
    obtain ⟨habit2b, hh2b⟩ :=
      findHabit_recorded_isSome db userId habitId createdAt habitId2 userId habit2 hh2
    have hfs2 : fullySatisfied
        (recorded (recorded db userId habitId createdAt) userId habitId2 createdAt2)
        userId now2 = true := by
      rw [fullySatisfied_same_day _ _ now2 now hday, fullySatisfied_recorded]
      show ((db.habits.map _).all _) = true
      rw [List.all_map, List.all_eq_true]
      intro h hm
      have hcc : ∀ x, hasCompletionToday (recorded db userId habitId createdAt) x now
          = hasCompletionToday (createCompletion db habitId userId createdAt) x now :=
        fun _ => rfl
      simp only [Function.comp, hcc, hasCompletionToday_createCompletion]
      have hkeep : ∀ g : Habit,
          (if h.id = habitId then ({ h with streak := h.streak + 1 } : Habit) else h) = g →
          g.id = h.id ∧ g.userId = h.userId ∧ isDueToday g now = isDueToday h now := by
        intro g hg
        subst hg
        split <;> exact ⟨rfl, rfl, rfl⟩
      obtain ⟨e1, e2, e3⟩ := hkeep _ rfl
      rw [e1, e2, e3]
      by_cases hown : h.userId = userId
      · cases hd : isDueToday h now with
        | false => simp
        | true =>
          rcases honly h hm hown hd with hA | hB
          · simp [hA, ht1, ht2]
          · simp [hB, ht3, ht4]
      · simp [hown]
    rw [hdb1]
    refine ⟨hu1, ?_⟩
    obtain ⟨-, hfu2⟩ := completeHabit_user (recorded db userId habitId createdAt) userId habitId2
      createdAt2 now2 habit2b user hh2b hu1
    rw [hfu2, hfs2]
    rfl

theorem streakOrdered_updateUserStreak (db db2 : Db) (userId : Nat) (c l : Int)
    (hus : db2.users = db.users) (h : streakOrdered db) :
    streakOrdered (updateUserStreak db2 userId c l) := by
  intro u hu
  unfold updateUserStreak at hu
  simp only [hus, List.mem_map] at hu
  obtain ⟨v, hv, rfl⟩ := hu
  split
  · show c ≤ if c > l then c else l
    split <;> omega
  · exact h v hv

theorem streakOrdered_of_users (db db2 : Db) (hus : db2.users = db.users) (h : streakOrdered db) :
    streakOrdered db2 := by
  intro u hu
  exact h u (hus ▸ hu)

theorem completeHabitWith_streakOrdered (fault : Option Step) (db : Db)
    (userId habitId createdAt now : Nat) (h : streakOrdered db) :
    streakOrdered (completeHabitWith fault db userId habitId createdAt now).2 := by
  unfold completeHabitWith
  split
  · exact h
  · simp only
    repeat' split
    all_goals first
      | exact h
      | exact streakOrdered_of_users db _ rfl h
      | exact streakOrdered_updateUserStreak db _ _ _ _ rfl h

theorem uncompleteUserStreak_streakOrdered (fault : Option Step) (db db2 : Db)
    (userId habitId today tomorrow : Nat) (hus : db2.users = db.users) (h : streakOrdered db) :
    streakOrdered (uncompleteUserStreak fault db2 userId habitId today tomorrow).2 := by
  unfold uncompleteUserStreak
  simp only
  repeat' split
  all_goals first
    | exact streakOrdered_of_users db _ hus h
    | exact streakOrdered_updateUserStreak db _ _ _ _ hus h

theorem uncompleteHabitWith_streakOrdered (fault : Option Step) (db : Db)
    (userId habitId now : Nat) (h : streakOrdered db) :
    streakOrdered (uncompleteHabitWith fault db userId habitId now).2 := by
  unfold uncompleteHabitWith
  cases findHabit db habitId userId with
  | none => exact h
  | some habit =>
    simp only
    cases findCompletion db habit.id (startOfDay now) (addDay (startOfDay now)) with
    | none => exact uncompleteUserStreak_streakOrdered fault db _ _ _ _ _ rfl h
    | some completion =>
      simp only
      repeat' split
      all_goals first
        | exact h
        | exact streakOrdered_of_users db _ rfl h
        | exact uncompleteUserStreak_streakOrdered fault db _ _ _ _ _ rfl h

theorem applyOp_streakOrdered (db : Db) (op : Op) (h : streakOrdered db) :
    streakOrdered (applyOp db op) := by
  cases op with
  | complete userId habitId createdAt now =>
    exact completeHabitWith_streakOrdered none db userId habitId createdAt now h
  | uncomplete userId habitId now =>
    exact uncompleteHabitWith_streakOrdered none db userId habitId now h

/-- C6. Aggregate ordering invariant: from any state in which every user has
`longestStreak >= currentStreak` (a newly registered user has 0 and 0), every
finite sequence of completion and reversal calls leads to a state with
`longestStreak >= currentStreak` for every user. -/
theorem run_streakOrdered (db : Db) (ops : List Op) (h : streakOrdered db) :
    streakOrdered (run db ops) := by
  unfold run
  induction ops generalizing db with
  | nil => exact h
  | cons op ops ih => exact ih (applyOp db op) (applyOp_streakOrdered db op h)

/-- C9. When no habit with the given id is owned by the given user (absent, or
owned by someone else), both handlers answer not-found and the whole state is
unchanged. -/
theorem habit_not_found_unchanged (db : Db) (userId habitId createdAt now : Nat)
    (h : ∀ x ∈ db.habits, ¬(x.id = habitId ∧ x.userId = userId)) :
    completeHabit db userId habitId createdAt now = (Response.notFound, db) ∧
    uncompleteHabit db userId habitId now = (Response.notFound, db) := by
  have hf : findHabit db habitId userId = none := by
    unfold findHabit
    rw [List.find?_eq_none]
    intro x hx
    simpa using h x hx
  unfold completeHabit completeHabitWith uncompleteHabit uncompleteHabitWith
  rw [hf]
  exact ⟨rfl, rfl⟩

/-- C2. The reversal handler on three due habits, all completed: the day goes
from fully satisfied to not fully satisfied, yet `currentStreak` stays 1; the
same with a single due habit. -/
theorem uncompleteHabit_misses_retreat :
    (fullySatisfied threeDone 1 t0 = true ∧
      fullySatisfied (uncompleteHabit threeDone 1 12 t0).2 1 t0 = false ∧
      findUser threeDone 1 = some ⟨1, 1, 1⟩ ∧
      findUser (uncompleteHabit threeDone 1 12 t0).2 1 = some ⟨1, 1, 1⟩) ∧
    (fullySatisfied oneDone 1 t0 = true ∧
      fullySatisfied (uncompleteHabit oneDone 1 10 t0).2 1 t0 = false ∧
      findUser oneDone 1 = some ⟨1, 1, 1⟩ ∧
      findUser (uncompleteHabit oneDone 1 10 t0).2 1 = some ⟨1, 1, 1⟩) := by
  decide

/-- C3. The reversal handler on habit 11, which has no completion today, while
habit 10 has one: the habit is returned unchanged and no completion is deleted,
but `currentStreak` goes from 0 to -1. -/
theorem uncompleteHabit_noop_changes_aggregate :
    hasCompletionToday oneOfTwoDone 11 t0 = false ∧
    (uncompleteHabit oneOfTwoDone 1 11 t0).1 = Response.ok (findHabit oneOfTwoDone 11 1) ∧
    (uncompleteHabit oneOfTwoDone 1 11 t0).2.completions = oneOfTwoDone.completions ∧
    (uncompleteHabit oneOfTwoDone 1 11 t0).2.habits = oneOfTwoDone.habits ∧
    findUser oneOfTwoDone 1 = some ⟨1, 0, 0⟩ ∧
    findUser (uncompleteHabit oneOfTwoDone 1 11 t0).2 1 = some ⟨1, -1, 0⟩ := by
  decide

/-- C4. Completion followed by reversal of the only due habit: `habit.streak` is
back at 0, `currentStreak` stays at 1 instead of returning to 0. -/
theorem complete_uncomplete_not_restored :
    hasCompletionToday oneDue 10 t0 = false ∧
    findHabit oneDue 10 1 = some ⟨10, 1, everyDay, 0⟩ ∧
    findUser oneDue 1 = some ⟨1, 0, 0⟩ ∧
    findHabit (uncompleteHabit (completeHabit oneDue 1 10 t0 t0).2 1 10 t0).2 10 1
      = some ⟨10, 1, everyDay, 0⟩ ∧
    (uncompleteHabit (completeHabit oneDue 1 10 t0 t0).2 1 10 t0).2.completions = [] ∧
    findUser (uncompleteHabit (completeHabit oneDue 1 10 t0 t0).2 1 10 t0).2 1
      = some ⟨1, 1, 1⟩ := by
  decide

/-- C7. From a newly registered user with two new due habits, completing one
habit and then reversing the other writes `currentStreak = -1`. -/
theorem run_currentStreak_negative :
    findUser twoDue 1 = some ⟨1, 0, 0⟩ ∧
    findUser (run twoDue [Op.complete 1 10 t0 t0, Op.uncomplete 1 11 t0]) 1
      = some ⟨1, -1, 0⟩ := by
  decide

theorem find_map_of_pred {α : Type} (p : α → Bool) (g : α → α) (hg : ∀ a, p (g a) = p a)
    (l : List α) : (l.map g).find? p = (l.find? p).map g := by
  rw [List.find?_map]
  have : p ∘ g = p := funext hg
  rw [this]

theorem findHabit_recorded (db : Db) (userId habitId createdAt : Nat) (habit : Habit)
    (hh : findHabit db habitId userId = some habit) :
    findHabit (recorded db userId habitId createdAt) habitId userId
      = some { habit with streak := habit.streak + 1 } := by
  obtain ⟨h1, -, -⟩ := findHabit_id db habitId userId habit hh
  unfold findHabit at hh ⊢
  show List.find? _ (db.habits.map _) = _
  rw [find_map_of_pred, hh]
  · simp [h1]
  · intro a
    by_cases ha : a.id = habitId <;> simp [ha]

/-- The completion handler changes habits and ledger exactly as the two
unconditional writes do. -/
theorem completeHabit_tables (db : Db) (userId habitId createdAt now : Nat) (habit : Habit)
    (hh : findHabit db habitId userId = some habit) :
    (completeHabit db userId habitId createdAt now).2.habits
        = (recorded db userId habitId createdAt).habits ∧
    (completeHabit db userId habitId createdAt now).2.completions
        = (recorded db userId habitId createdAt).completions := by
  rw [completeHabit_found db userId habitId createdAt now habit hh]
  cases findUser db userId with
  | none => exact ⟨rfl, rfl⟩
  | some user =>
    simp only
    split <;> exact ⟨rfl, rfl⟩

theorem findHabit_congr (db db2 : Db) (habitId userId : Nat) (h : db2.habits = db.habits) :
    findHabit db2 habitId userId = findHabit db habitId userId := by
  unfold findHabit
  rw [h]

theorem fullySatisfied_recorded_mono (db : Db) (userId habitId createdAt uid now : Nat)
    (h : fullySatisfied db uid now = true) :
    fullySatisfied (recorded db userId habitId createdAt) uid now = true := by
  rw [fullySatisfied_recorded]
  unfold fullySatisfied at h
  rw [List.all_eq_true] at h ⊢
  intro x hx
  have := h x hx
  simp only [Bool.or_eq_true] at this ⊢
  rcases this with h1 | h1
  · exact Or.inl h1
  · exact Or.inr (Or.inl h1)

/-- C5 (as the code behaves). A second completion call for the same habit is
answered with success like the first: it appends one more completion row and
increments `habit.streak` once more, and when the day is fully satisfied after
the first call it advances the aggregate once more. -/
theorem completeHabit_twice (db : Db) (userId habitId createdAt now createdAt2 now2 : Nat)
    (habit : Habit) (hh : findHabit db habitId userId = some habit) :
    (∃ updated, (completeHabit (completeHabit db userId habitId createdAt now).2
        userId habitId createdAt2 now2).1 = Response.ok updated) ∧
    (completeHabit (completeHabit db userId habitId createdAt now).2
        userId habitId createdAt2 now2).2.completions.length
      = (completeHabit db userId habitId createdAt now).2.completions.length + 1 ∧
    findHabit (completeHabit db userId habitId createdAt now).2 habitId userId
      = some { habit with streak := habit.streak + 1 } ∧
    findHabit (completeHabit (completeHabit db userId habitId createdAt now).2
        userId habitId createdAt2 now2).2 habitId userId
      = some { habit with streak := habit.streak + 1 + 1 } ∧
    (∀ user1, findUser (completeHabit db userId habitId createdAt now).2 userId = some user1 →
      fullySatisfied (completeHabit db userId habitId createdAt now).2 userId now2 = true →
      findUser (completeHabit (completeHabit db userId habitId createdAt now).2
        userId habitId createdAt2 now2).2 userId = some (advanced user1)) := by
  obtain ⟨ht1, ht2⟩ := completeHabit_tables db userId habitId createdAt now habit hh
  have hh1 : findHabit (completeHabit db userId habitId createdAt now).2 habitId userId
      = some { habit with streak := habit.streak + 1 } := by
    rw [findHabit_congr _ _ _ _ ht1]
    exact findHabit_recorded db userId habitId createdAt habit hh
  obtain ⟨hs1, hs2⟩ := completeHabit_tables (completeHabit db userId habitId createdAt now).2
    userId habitId createdAt2 now2 _ hh1
  refine ⟨?_, ?_, hh1, ?_, ?_⟩
  · rw [completeHabit_found _ userId habitId createdAt2 now2 _ hh1]
    exact ⟨_, rfl⟩
  · rw [hs2]
    simp [recorded, incrementStreak, createCompletion]
  · rw [findHabit_congr _ _ _ _ hs1]
    exact findHabit_recorded _ userId habitId createdAt2 _ hh1
  · intro user1 hu1 hfs
    obtain ⟨-, hfu⟩ := completeHabit_user _ userId habitId createdAt2 now2 _ user1 hh1 hu1
    rw [hfu, fullySatisfied_recorded_mono _ _ _ _ _ _ hfs]
    rfl

/-- C5 (counterexample). On `oneDue`, the second completion of habit 10 at the
same instant is answered with success, the ledger grows from one row to two,
`habit.streak` goes from 1 to 2 and `currentStreak` from 1 to 2. -/
theorem completeHabit_twice_counterexample :
    (completeHabit oneDone 1 10 t0 t0).1 = Response.ok (some ⟨10, 1, everyDay, 2⟩) ∧
    oneDone.completions.length = 1 ∧
    (completeHabit oneDone 1 10 t0 t0).2.completions.length = 2 ∧
    findHabit oneDone 10 1 = some ⟨10, 1, everyDay, 1⟩ ∧
    findHabit (completeHabit oneDone 1 10 t0 t0).2 10 1 = some ⟨10, 1, everyDay, 2⟩ ∧
    findUser oneDone 1 = some ⟨1, 1, 1⟩ ∧
    findUser (completeHabit oneDone 1 10 t0 t0).2 1 = some ⟨1, 2, 2⟩ := by
  decide

theorem all_congr_mem {α : Type} (l : List α) (f g : α → Bool) (h : ∀ x ∈ l, f x = g x) :
    l.all f = l.all g := by
  induction l with
  | nil => rfl
  | cons a as ih =>
    rw [List.all_cons, List.all_cons, h a (List.mem_cons_self a as),
      ih (fun x hx => h x (List.mem_cons_of_mem a hx))]

theorem fullySatisfied_recorded_nondue (db : Db) (userId habitId createdAt now : Nat)
    (habit : Habit) (hh : findHabit db habitId userId = some habit)
    (hnd : isDueToday habit now = false) (huniq : habitIdsUnique db) :
    fullySatisfied (recorded db userId habitId createdAt) userId now
      = fullySatisfied db userId now := by
  obtain ⟨h1, -, h3⟩ := findHabit_id db habitId userId habit hh
  rw [fullySatisfied_recorded]
  unfold fullySatisfied
  apply all_congr_mem
  intro x hx
  by_cases hid : x.id = habitId
  · have hxe : x = habit :=
      List.inj_on_of_nodup_map huniq hx h3 (hid.trans h1.symm)
    simp [hxe, hnd]
  · have hne : (habitId == x.id) = false := by
      simpa using fun h : habitId = x.id => hid h.symm
    simp only [hne, Bool.false_and, Bool.or_false]

/-- C8 (as the code behaves). Completing a habit that is not due today does not
change which due habits are complete, and the aggregate follows the general
rule: it advances when every due habit already has a completion today (zero due
habits included) and is unchanged when some due habit has none. -/
theorem completeHabit_nondue (db : Db) (userId habitId createdAt now : Nat)
    (habit : Habit) (user : User)
    (hh : findHabit db habitId userId = some habit) (hu : findUser db userId = some user)
    (hnd : isDueToday habit now = false) (huniq : habitIdsUnique db) :
    fullySatisfied (completeHabit db userId habitId createdAt now).2 userId now
      = fullySatisfied db userId now ∧
    (fullySatisfied db userId now = true →
      findUser (completeHabit db userId habitId createdAt now).2 userId = some (advanced user)) ∧
    (fullySatisfied db userId now = false →
      findUser (completeHabit db userId habitId createdAt now).2 userId = some user) := by
  obtain ⟨hfs, hfu⟩ := completeHabit_user db userId habitId createdAt now habit user hh hu
  rw [fullySatisfied_recorded_nondue db userId habitId createdAt now habit hh hnd huniq] at hfs hfu
  refine ⟨hfs, fun h => ?_, fun h => ?_⟩
  · rw [hfu, h]; rfl
  · rw [hfu, h]; rfl

/-- C8 (counterexample). On `noneDue`, where habit 10 is not due and no habit is
due, completing habit 10 moves the aggregate from (0, 0) to (1, 1). -/
theorem completeHabit_nondue_counterexample :
    findHabit noneDue 10 1 = some ⟨10, 1, noDay, 0⟩ ∧
    isDueToday ⟨10, 1, noDay, 0⟩ t0 = false ∧
    todaysHabits noneDue 1 (getDay t0) = [] ∧
    findUser noneDue 1 = some ⟨1, 0, 0⟩ ∧
    findUser (completeHabit noneDue 1 10 t0 t0).2 1 = some ⟨1, 1, 1⟩ := by
  decide

theorem uncompleteUserStreak_userUpdate (d : Db) (userId habitId today tomorrow : Nat) :
    (uncompleteUserStreak (some Step.userUpdate) d userId habitId today tomorrow).2 = d ∧
    (uncompleteUserStreak none d userId habitId today tomorrow).2.habits = d.habits ∧
    (uncompleteUserStreak none d userId habitId today tomorrow).2.completions = d.completions ∧
    ((uncompleteUserStreak none d userId habitId today tomorrow).2.users ≠ d.users →
      (uncompleteUserStreak (some Step.userUpdate) d userId habitId today tomorrow).1
        = Response.serverError) := by
  unfold uncompleteUserStreak
  simp only
  cases findUser d userId with
  | none => simp
  | some user =>
    simp only
    split
    · simp [updateUserStreak]
    · simp

/-- C10 (as the code behaves). Each write commits on its own, so a storage
failure is answered with the failure result and leaves in place the writes made
before it: a failure of the ledger write or delete leaves the state unchanged; a
failure of the habit update leaves the ledger change alone in place; a failure
of the user update leaves the ledger and habit changes in place and the user
rows untouched. -/
theorem storage_failure_keeps_earlier_writes (db : Db) (userId habitId createdAt now : Nat)
    (habit : Habit) (hh : findHabit db habitId userId = some habit) :
    completeHabitWith (some Step.ledger) db userId habitId createdAt now
      = (Response.serverError, db) ∧
    completeHabitWith (some Step.habitUpdate) db userId habitId createdAt now
      = (Response.serverError, createCompletion db habitId userId createdAt) ∧
    (∀ user, findUser db userId = some user →
      fullySatisfied (recorded db userId habitId createdAt) userId now = true →
      completeHabitWith (some Step.userUpdate) db userId habitId createdAt now
        = (Response.serverError, recorded db userId habitId createdAt)) ∧
    (∀ completion,
      findCompletion db habitId (startOfDay now) (addDay (startOfDay now)) = some completion →
      uncompleteHabitWith (some Step.ledger) db userId habitId now = (Response.serverError, db) ∧
      (habit.streak > 0 →
        uncompleteHabitWith (some Step.habitUpdate) db userId habitId now
          = (Response.serverError, deleteCompletion db completion.id)) ∧
      (uncompleteHabitWith (some Step.userUpdate) db userId habitId now).2.users = db.users ∧
      (uncompleteHabitWith (some Step.userUpdate) db userId habitId now).2.habits
        = (uncompleteHabit db userId habitId now).2.habits ∧
      (uncompleteHabitWith (some Step.userUpdate) db userId habitId now).2.completions
        = (uncompleteHabit db userId habitId now).2.completions ∧
      ((uncompleteHabit db userId habitId now).2.users ≠ db.users →
        (uncompleteHabitWith (some Step.userUpdate) db userId habitId now).1
          = Response.serverError)) := by
  obtain ⟨h1, -, -⟩ := findHabit_id db habitId userId habit hh
  refine ⟨?_, ?_, ?_, ?_⟩
  · unfold completeHabitWith
    rw [hh]
    simp
  · unfold completeHabitWith
    rw [hh]
    simp [h1]
  · intro user hu hfs
    unfold completeHabitWith
    rw [hh]
    have hu2 : findUser (incrementStreak (createCompletion db habitId userId createdAt) habitId)
        userId = some user := hu
    simp only [h1, status_any_false, hu2]
    unfold recorded at hfs
    simp [hfs, recorded]
  · intro completion hc
    unfold uncompleteHabit uncompleteHabitWith
    rw [hh]
    simp only [h1, hc]
    refine ⟨by simp, fun hs => by simp [hs], ?_⟩
    by_cases hs : habit.streak > 0
    · obtain ⟨e1, e2, e3, e4⟩ := uncompleteUserStreak_userUpdate
        (decrementStreak (deleteCompletion db completion.id) habitId) userId habitId
        (startOfDay now) (addDay (startOfDay now))
      simp only [hs, if_true, Option.some.injEq, reduceCtorEq, if_false]
      rw [e1, e2, e3]
      exact ⟨rfl, rfl, rfl, e4⟩
    · obtain ⟨e1, e2, e3, e4⟩ := uncompleteUserStreak_userUpdate
        (deleteCompletion db completion.id) userId habitId
        (startOfDay now) (addDay (startOfDay now))
      simp only [hs, if_false, Option.some.injEq, reduceCtorEq]
      rw [e1, e2, e3]
      exact ⟨rfl, rfl, rfl, e4⟩

/-- C10 (counterexample). On `oneDue`, a storage failure of the habit update in
the completion handler leaves the completion row recorded while `habit.streak`
and the aggregate are unchanged: the state differs from the one before. -/
theorem storage_failure_counterexample :
    (completeHabitWith (some Step.habitUpdate) oneDue 1 10 t0 t0).1 = Response.serverError ∧
    (completeHabitWith (some Step.habitUpdate) oneDue 1 10 t0 t0).2 ≠ oneDue ∧
    oneDue.completions = [] ∧
    (completeHabitWith (some Step.habitUpdate) oneDue 1 10 t0 t0).2.completions
      = [⟨1, 10, 1, t0⟩] ∧
    (completeHabitWith (some Step.habitUpdate) oneDue 1 10 t0 t0).2.habits = oneDue.habits ∧
    (completeHabitWith (some Step.habitUpdate) oneDue 1 10 t0 t0).2.users = oneDue.users := by
  decide

/-! ## Instances at concrete states -/

/-- Instance of C1 on `twoDue`: completing habit 10 leaves (0, 0), completing habit 11 next
gives (1, 1). -/
theorem completeHabit_aggregate_rule_witness :
    findHabit twoDue 10 1 = some ⟨10, 1, everyDay, 0⟩ ∧
    findUser twoDue 1 = some ⟨1, 0, 0⟩ ∧
    findUser (completeHabit twoDue 1 10 t0 t0).2 1 = some ⟨1, 0, 0⟩ ∧
    findUser (completeHabit (completeHabit twoDue 1 10 t0 t0).2 1 11 t0 t0).2 1
      = some (advanced ⟨1, 0, 0⟩) :=
  ⟨by decide, by decide,
    (completeHabit_aggregate_rule twoDue 1 10 t0 t0 ⟨10, 1, everyDay, 0⟩ ⟨1, 0, 0⟩
      (by decide) (by decide)).2.2 11 t0 t0 ⟨11, 1, everyDay, 0⟩
      (by decide) (by decide) (by decide) (by decide) (by decide) (by decide) (by decide)
      (by decide) (by decide) (by decide) (by decide) (by decide)⟩

/-- Instance of C5 on `oneDue`: two completions of habit 10 leave its streak at 2. -/
theorem completeHabit_twice_witness :
    findHabit oneDue 10 1 = some ⟨10, 1, everyDay, 0⟩ ∧
    findHabit (completeHabit (completeHabit oneDue 1 10 t0 t0).2 1 10 t0 t0).2 10 1
      = some ⟨10, 1, everyDay, 0 + 1 + 1⟩ :=
  ⟨by decide,
    (completeHabit_twice oneDue 1 10 t0 t0 t0 t0 ⟨10, 1, everyDay, 0⟩ (by decide)).2.2.2.1⟩

/-- Instance of C6 on `twoDue` with three calls. -/
theorem run_streakOrdered_witness :
    streakOrdered twoDue ∧
    streakOrdered (run twoDue [Op.complete 1 10 t0 t0, Op.complete 1 11 t0 t0,
      Op.uncomplete 1 11 t0]) :=
  ⟨by unfold streakOrdered; decide,
    run_streakOrdered twoDue [Op.complete 1 10 t0 t0, Op.complete 1 11 t0 t0,
      Op.uncomplete 1 11 t0] (by unfold streakOrdered; decide)⟩

/-- Instance of C8 on `noneDue`: no habit is due, so completing habit 10 advances the
aggregate. -/
theorem completeHabit_nondue_witness :
    findHabit noneDue 10 1 = some ⟨10, 1, noDay, 0⟩ ∧
    findUser noneDue 1 = some ⟨1, 0, 0⟩ ∧
    isDueToday ⟨10, 1, noDay, 0⟩ t0 = false ∧
    habitIdsUnique noneDue ∧
    fullySatisfied noneDue 1 t0 = true ∧
    findUser (completeHabit noneDue 1 10 t0 t0).2 1 = some (advanced ⟨1, 0, 0⟩) :=
  ⟨by decide, by decide, by decide, by unfold habitIdsUnique; decide, by decide,
    (completeHabit_nondue noneDue 1 10 t0 t0 ⟨10, 1, noDay, 0⟩ ⟨1, 0, 0⟩ (by decide) (by decide)
      (by decide) (by unfold habitIdsUnique; decide)).2.1 (by decide)⟩

/-- Instance of C9 on `oneDue`: habit 10 belongs to user 1, user 2 asks for it. -/
theorem habit_not_found_unchanged_witness :
    (∀ x ∈ oneDue.habits, ¬(x.id = 10 ∧ x.userId = 2)) ∧
    completeHabit oneDue 2 10 t0 t0 = (Response.notFound, oneDue) ∧
    uncompleteHabit oneDue 2 10 t0 = (Response.notFound, oneDue) :=
  ⟨by decide, habit_not_found_unchanged oneDue 2 10 t0 t0 (by decide)⟩

/-- Instance of C10 on `oneDone`: a failing habit update after the ledger write, and after
the ledger delete. -/
theorem storage_failure_keeps_earlier_writes_witness :
    findHabit oneDone 10 1 = some ⟨10, 1, everyDay, 1⟩ ∧
    completeHabitWith (some Step.habitUpdate) oneDone 1 10 t0 t0
      = (Response.serverError, createCompletion oneDone 10 1 t0) ∧
    findCompletion oneDone 10 (startOfDay t0) (addDay (startOfDay t0)) = some ⟨1, 10, 1, t0⟩ ∧
    uncompleteHabitWith (some Step.habitUpdate) oneDone 1 10 t0
      = (Response.serverError, deleteCompletion oneDone 1) :=
  ⟨by decide,
    (storage_failure_keeps_earlier_writes oneDone 1 10 t0 t0 ⟨10, 1, everyDay, 1⟩
      (by decide)).2.1,
    by decide,
    ((storage_failure_keeps_earlier_writes oneDone 1 10 t0 t0 ⟨10, 1, everyDay, 1⟩
      (by decide)).2.2.2 ⟨1, 10, 1, t0⟩ (by decide)).2.1 (by decide)⟩

/-! ## The per-habit streak -/

theorem uncompleteUserStreak_tables (fault : Option Step) (d : Db)
    (userId habitId today tomorrow : Nat) :
    (uncompleteUserStreak fault d userId habitId today tomorrow).2.habits = d.habits ∧
    (uncompleteUserStreak fault d userId habitId today tomorrow).2.completions
      = d.completions := by
  unfold uncompleteUserStreak
  simp only
  cases findUser d userId with
  | none => exact ⟨rfl, rfl⟩
  | some user =>
    simp only
    repeat' split
    all_goals exact ⟨rfl, rfl⟩

/-- Habits and ledger after the reversal handler, when the habit is found. -/
theorem uncompleteHabit_tables (db : Db) (userId habitId now : Nat) (habit : Habit)
    (hh : findHabit db habitId userId = some habit) :
    (uncompleteHabit db userId habitId now).2.habits
        = (if hasCompletionToday db habitId now = true ∧ habit.streak > 0
            then (decrementStreak db habitId).habits else db.habits) ∧
    (uncompleteHabit db userId habitId now).2.completions
        = (match findCompletion db habitId (startOfDay now) (addDay (startOfDay now)) with
            | some completion => (deleteCompletion db completion.id).completions
            | none => db.completions) := by
  obtain ⟨h1, -, -⟩ := findHabit_id db habitId userId habit hh
  unfold uncompleteHabit uncompleteHabitWith
  rw [hh, ← findCompletion_isSome]
  simp only [h1]
  cases findCompletion db habitId (startOfDay now) (addDay (startOfDay now)) with
  | none =>
    obtain ⟨e1, e2⟩ := uncompleteUserStreak_tables none db userId habitId
      (startOfDay now) (addDay (startOfDay now))
    simp only [e1, e2, Option.isSome_none, Bool.false_eq_true, false_and, if_false]
    exact ⟨trivial, trivial⟩
  | some completion =>
    simp only [reduceCtorEq, if_false, Option.isSome_some, true_and]
    by_cases hs : habit.streak > 0
    · obtain ⟨e1, e2⟩ := uncompleteUserStreak_tables none
        (decrementStreak (deleteCompletion db completion.id) habitId) userId habitId
        (startOfDay now) (addDay (startOfDay now))
      simp only [hs, if_true, e1, e2]
      exact ⟨rfl, rfl⟩
    · obtain ⟨e1, e2⟩ := uncompleteUserStreak_tables none
        (deleteCompletion db completion.id) userId habitId
        (startOfDay now) (addDay (startOfDay now))
      simp only [hs, if_false, e1, e2]
      exact ⟨rfl, trivial⟩

theorem map_id_of_keep (g : Habit → Habit) (hg : ∀ h, (g h).id = h.id) (l : List Habit) :
    (l.map g).map (fun h => h.id) = l.map (fun h => h.id) := by
  rw [List.map_map]
  apply List.map_congr_left
  intro h _
  exact hg h

theorem incrementStreak_keeps (db : Db) (habitId : Nat)
    (huniq : habitIdsUnique db) (hnn : streakNonneg db) :
    habitIdsUnique (incrementStreak db habitId) ∧ streakNonneg (incrementStreak db habitId) := by
  constructor
  · unfold habitIdsUnique incrementStreak at *
    simp only
    rw [map_id_of_keep _ (fun h => by split <;> rfl)]
    exact huniq
  · intro h hm
    unfold incrementStreak at hm
    simp only [List.mem_map] at hm
    obtain ⟨h0, hm0, rfl⟩ := hm
    have := hnn h0 hm0
    split
    · show 0 ≤ h0.streak + 1
      omega
    · exact this

theorem decrementStreak_keeps (db : Db) (habitId userId : Nat) (habit : Habit)
    (hh : findHabit db habitId userId = some habit) (hs : habit.streak > 0)
    (huniq : habitIdsUnique db) (hnn : streakNonneg db) :
    habitIdsUnique (decrementStreak db habitId) ∧ streakNonneg (decrementStreak db habitId) := by
  obtain ⟨h1, -, h3⟩ := findHabit_id db habitId userId habit hh
  constructor
  · unfold habitIdsUnique decrementStreak at *
    simp only
    rw [map_id_of_keep _ (fun h => by split <;> rfl)]
    exact huniq
  · intro h hm
    unfold decrementStreak at hm
    simp only [List.mem_map] at hm
    obtain ⟨h0, hm0, rfl⟩ := hm
    split
    · rename_i hid
      have he : h0 = habit := List.inj_on_of_nodup_map huniq hm0 h3 (hid.trans h1.symm)
      show 0 ≤ h0.streak - 1
      rw [he]
      omega
    · exact hnn h0 hm0

theorem keeps_of_habits (db db2 : Db) (h : db2.habits = db.habits)
    (hk : habitIdsUnique db ∧ streakNonneg db) : habitIdsUnique db2 ∧ streakNonneg db2 := by
  unfold habitIdsUnique streakNonneg at *
  rw [h]
  exact hk

theorem applyOp_streakNonneg (db : Db) (op : Op)
    (hk : habitIdsUnique db ∧ streakNonneg db) :
    habitIdsUnique (applyOp db op) ∧ streakNonneg (applyOp db op) := by
  cases op with
  | complete userId habitId createdAt now =>
    show habitIdsUnique (completeHabit db userId habitId createdAt now).2 ∧
      streakNonneg (completeHabit db userId habitId createdAt now).2
    cases hh : findHabit db habitId userId with
    | none =>
      have : (completeHabit db userId habitId createdAt now).2 = db := by
        unfold completeHabit completeHabitWith
        rw [hh]
      rw [this]
      exact hk
    | some habit =>
      obtain ⟨e1, -⟩ := completeHabit_tables db userId habitId createdAt now habit hh
      exact keeps_of_habits (incrementStreak db habitId) _ e1
        (incrementStreak_keeps db habitId hk.1 hk.2)
  | uncomplete userId habitId now =>
    show habitIdsUnique (uncompleteHabit db userId habitId now).2 ∧
      streakNonneg (uncompleteHabit db userId habitId now).2
    cases hh : findHabit db habitId userId with
    | none =>
      have : (uncompleteHabit db userId habitId now).2 = db := by
        unfold uncompleteHabit uncompleteHabitWith
        rw [hh]
      rw [this]
      exact hk
    | some habit =>
      obtain ⟨e1, -⟩ := uncompleteHabit_tables db userId habitId now habit hh
      by_cases hc : hasCompletionToday db habitId now = true ∧ habit.streak > 0
      · rw [if_pos hc] at e1
        exact keeps_of_habits (decrementStreak db habitId) _ e1
          (decrementStreak_keeps db habitId userId habit hh hc.2 hk.1 hk.2)
      · rw [if_neg hc] at e1
        exact keeps_of_habits db _ e1 hk

theorem run_keeps (db : Db) (ops : List Op) (hk : habitIdsUnique db ∧ streakNonneg db) :
    habitIdsUnique (run db ops) ∧ streakNonneg (run db ops) := by
  unfold run
  induction ops generalizing db with
  | nil => exact hk
  | cons op ops ih => exact ih (applyOp db op) (applyOp_streakNonneg db op hk)

theorem findHabit_decrementStreak (db : Db) (userId habitId : Nat) (habit : Habit)
    (hh : findHabit db habitId userId = some habit) :
    findHabit (decrementStreak db habitId) habitId userId
      = some { habit with streak := habit.streak - 1 } := by
  obtain ⟨h1, -, -⟩ := findHabit_id db habitId userId habit hh
  unfold findHabit at hh ⊢
  show List.find? _ (db.habits.map _) = _
  rw [find_map_of_pred, hh]
  · simp [h1]
  · intro a
    by_cases ha : a.id = habitId <;> simp [ha]

/-- C11. From any state with unique habit ids in which every `habit.streak` is
at least 0 (a newly created habit has 0), every finite sequence of completion
and reversal calls leads to a state in which every `habit.streak` is at least 0.
The reversal handler decrements `habit.streak` by exactly 1 when a completion of
today was removed and the streak was greater than 0, and in every other case
leaves all habits unchanged. -/
theorem habit_streak_nonneg (db : Db) (ops : List Op)
    (huniq : habitIdsUnique db) (hnn : streakNonneg db) :
    streakNonneg (run db ops) ∧
    (∀ (userId habitId now : Nat) (habit : Habit),
      findHabit db habitId userId = some habit →
      (hasCompletionToday db habitId now = true → habit.streak > 0 →
        findHabit (uncompleteHabit db userId habitId now).2 habitId userId
          = some { habit with streak := habit.streak - 1 } ∧
        (uncompleteHabit db userId habitId now).2.habits = (decrementStreak db habitId).habits ∧
        ∃ completion,
          findCompletion db habitId (startOfDay now) (addDay (startOfDay now))
            = some completion ∧
          (uncompleteHabit db userId habitId now).2.completions
            = (deleteCompletion db completion.id).completions) ∧
      (¬(hasCompletionToday db habitId now = true ∧ habit.streak > 0) →
        findHabit (uncompleteHabit db userId habitId now).2 habitId userId = some habit ∧
        (uncompleteHabit db userId habitId now).2.habits = db.habits)) := by
  refine ⟨(run_keeps db ops ⟨huniq, hnn⟩).2, ?_⟩
  intro userId habitId now habit hh
  obtain ⟨e1, e2⟩ := uncompleteHabit_tables db userId habitId now habit hh
  constructor
  · intro hc hs
    rw [if_pos ⟨hc, hs⟩] at e1
    refine ⟨?_, e1, ?_⟩
    · rw [findHabit_congr _ _ _ _ e1]
      exact findHabit_decrementStreak db userId habitId habit hh
    · rw [← findCompletion_isSome] at hc
      cases hf : findCompletion db habitId (startOfDay now) (addDay (startOfDay now)) with
      | none => rw [hf] at hc; simp at hc
      | some completion =>
        rw [hf] at e2
        exact ⟨completion, rfl, e2⟩
  · intro hn
    rw [if_neg hn] at e1
    exact ⟨(findHabit_congr _ _ _ _ e1).trans hh, e1⟩

/-- Instance of C11 on `oneDone`: three calls keep every streak at least 0, and
reversing habit 10, completed today with streak 1, brings its streak to 0. -/
theorem habit_streak_nonneg_witness :
    habitIdsUnique oneDone ∧ streakNonneg oneDone ∧
    streakNonneg (run oneDone [Op.uncomplete 1 10 t0, Op.uncomplete 1 10 t0,
      Op.complete 1 10 t0 t0]) ∧
    findHabit (uncompleteHabit oneDone 1 10 t0).2 10 1 = some ⟨10, 1, everyDay, 1 - 1⟩ :=
  ⟨by unfold habitIdsUnique; decide, by unfold streakNonneg; decide,
    (habit_streak_nonneg oneDone [Op.uncomplete 1 10 t0, Op.uncomplete 1 10 t0,
      Op.complete 1 10 t0 t0] (by unfold habitIdsUnique; decide)
      (by unfold streakNonneg; decide)).1,
    ((habit_streak_nonneg oneDone [] (by unfold habitIdsUnique; decide)
      (by unfold streakNonneg; decide)).2 1 10 t0 ⟨10, 1, everyDay, 1⟩ (by decide)).1
      (by decide) (by decide) |>.1⟩

/-! ## Two completion requests in flight: the invariant -/

theorem aggInv_symm (user : Option User) (c : Int) (dX fX dY fY : Bool)
    (h : aggInv user c dX fX dY fY) : aggInv user c dY fY dX fX := by
  obtain ⟨⟨u, hu, h1, h2, h3, h4, h5, h6, h7⟩, hnb⟩ := h
  refine ⟨⟨u, hu, h1, h2, fun e => (h3 e).symm, fun e => (h4 e).symm, fun a b => h5 b a,
    h7, h6⟩, fun e => hnb e.symm⟩

theorem RaceInv.symm {db0 : Db} {uid : Nat} {c : Int} {tref i j : Nat} {X Y : Request} {db : Db}
    (h : RaceInv db0 uid c tref i j X Y db) : RaceInv db0 uid c tref j i Y X db :=
  ⟨h.keys, aggInv_symm _ _ _ _ _ _ h.agg, h.other, h.own⟩

theorem localInv_mono (db db2 : Db) (c : Int) (tref i j : Nat) (od od2 : Bool) (R : Request)
    (hc : ∀ k, hasCompletionToday db k tref = true → hasCompletionToday db2 k tref = true)
    (hd : od = true → od2 = true) (h : localInv db c tref i j od R) :
    localInv db2 c tref i j od2 R := by
  cases R with
  | start => trivial
  | found habit => exact h
  | created habit => exact ⟨h.1, hc _ h.2⟩
  | updated uh => exact hc _ h
  | looking uh pending flags => exact ⟨hc _ h.1, h.2⟩
  | checked uh ck => exact hc _ h
  | userRead uh v => exact ⟨hc _ h.1, h.2.1, h.2.2.1, fun e => hd (h.2.2.2 e)⟩
  | done r => exact hc _ h

theorem localInv_has (db : Db) (c : Int) (tref i j : Nat) (od : Bool) (R : Request)
    (h : localInv db c tref i j od R) (hR : hasCompletionToday db i tref = false) :
    R.isDone = false ∧ R.failed = false := by
  cases R with
  | start => exact ⟨rfl, rfl⟩
  | found habit => exact ⟨rfl, rfl⟩
  | created habit => rw [h.2] at hR; cases hR
  | updated uh => rw [h] at hR; cases hR
  | looking uh pending flags => rw [h.1] at hR; cases hR
  | checked uh ck => rw [h] at hR; cases hR
  | userRead uh v => rw [h.1] at hR; cases hR
  | done r => rw [h] at hR; cases hR

theorem afterLookups_isDone (uh : Option Habit) (pending : List Habit) (flags : List Bool) :
    (afterLookups uh pending flags).isDone = false ∧
    (afterLookups uh pending flags).failed = flags.any (fun d => d == false) := by
  cases pending <;> exact ⟨rfl, rfl⟩

theorem localInv_afterLookups (db : Db) (c : Int) (tref i j : Nat) (od : Bool)
    (uh : Option Habit) (pending : List Habit) (flags : List Bool)
    (hi : hasCompletionToday db i tref = true) (hp : ∀ h ∈ pending, h.id = i ∨ h.id = j) :
    localInv db c tref i j od (afterLookups uh pending flags) := by
  cases pending with
  | nil => exact hi
  | cons h rest => exact ⟨hi, hp⟩

theorem mem_of_keys (db db0 : Db) (hk : db.habits.map habitKey = db0.habits.map habitKey)
    (h : Habit) (hm : h ∈ db.habits) : ∃ h0 ∈ db0.habits, habitKey h0 = habitKey h := by
  have : habitKey h ∈ db0.habits.map habitKey := hk ▸ List.mem_map_of_mem habitKey hm
  exact List.mem_map.mp this

theorem findHabit_of_keys (db db0 : Db) (hk : db.habits.map habitKey = db0.habits.map habitKey)
    (i uid : Nat) (h0 : Habit) (hf : findHabit db0 i uid = some h0) :
    ∃ h, findHabit db i uid = some h ∧ h.id = i := by
  cases hh : findHabit db i uid with
  | some h => exact ⟨h, rfl, (findHabit_id db i uid h hh).1⟩
  | none =>
    exfalso
    obtain ⟨e1, e2, e3⟩ := findHabit_id db0 i uid h0 hf
    obtain ⟨x, hx, hkx⟩ := mem_of_keys db0 db hk.symm h0 e3
    unfold findHabit at hh
    rw [List.find?_eq_none] at hh
    have hx2 := hh x hx
    unfold habitKey at hkx
    simp only [Prod.mk.injEq] at hkx
    simp [hkx.1, hkx.2.1, e1, e2] at hx2

theorem todays_ids_of_keys (db db0 : Db) (hk : db.habits.map habitKey = db0.habits.map habitKey)
    (uid i j tref now : Nat) (hday : startOfDay now = startOfDay tref)
    (honly : ∀ h ∈ db0.habits, h.userId = uid → isDueToday h tref = true → h.id = i ∨ h.id = j) :
    ∀ h ∈ todaysHabits db uid (getDay now), h.id = i ∨ h.id = j := by
  intro h hm
  unfold todaysHabits at hm
  rw [List.mem_filter, List.mem_filter] at hm
  obtain ⟨⟨hmem, huid⟩, hdue⟩ := hm
  obtain ⟨h0, hm0, hk0⟩ := mem_of_keys db db0 hk h hmem
  unfold habitKey at hk0
  simp only [Prod.mk.injEq] at hk0
  have hu0 : h0.userId = uid := by rw [hk0.2.1]; simpa using huid
  have hd0 : isDueToday h0 tref = true := by
    unfold isDueToday
    rw [hk0.2.2, ← getDay_of_startOfDay_eq now tref hday]
    exact hdue
  rw [← hk0.1]
  exact honly h0 hm0 hu0 hd0

theorem hasCompletionToday_same_day (db : Db) (k s t : Nat) (h : startOfDay s = startOfDay t) :
    hasCompletionToday db k s = hasCompletionToday db k t := by
  unfold hasCompletionToday
  rw [h]

theorem lookup_flag (db : Db) (h : Habit) (now : Nat) :
    habitsWithStatus db [h] (startOfDay now) (addDay (startOfDay now))
      = [hasCompletionToday db h.id now] := by
  unfold habitsWithStatus
  simp only [List.map_cons, List.map_nil, findCompletion_isSome]

theorem keys_incrementStreak (db : Db) (habitId : Nat) :
    (incrementStreak db habitId).habits.map habitKey = db.habits.map habitKey := by
  unfold incrementStreak
  simp only [List.map_map]
  apply List.map_congr_left
  intro h _
  simp only [Function.comp]
  split <;> rfl

theorem aggInv_setFailed (user : Option User) (c : Int) (dX fX fX2 dY fY : Bool)
    (hf : fX2 = true → fX = true ∨ (dY = false ∧ fY = false))
    (h : aggInv user c dX fX dY fY) : aggInv user c dX fX2 dY fY := by
  obtain ⟨⟨u, hu, h1, h2, h3, h4, h5, h6, h7⟩, hnb⟩ := h
  refine ⟨⟨u, hu, h1, h2, h3, h4, h5, ?_, h7⟩, ?_⟩
  · intro e d
    rcases hf e with h | h
    · exact h6 h d
    · rw [h.1] at d; cases d
  · intro e
    rcases hf e.1 with h | h
    · exact hnb ⟨h, e.2⟩
    · rw [h.2] at e; cases e.2

/-- One call of the request for habit `i` keeps the invariant of the race. -/
theorem stepRequest_inv (db0 : Db) (uid : Nat) (c : Int) (tref i j : Nat) (x : Call)
    (hxu : x.userId = uid) (hxi : x.habitId = i)
    (hday : startOfDay x.now = startOfDay tref)
    (hw1 : startOfDay tref ≤ x.createdAt) (hw2 : x.createdAt < startOfDay tref + msPerDay)
    (h0 : Habit) (hf0 : findHabit db0 i uid = some h0)
    (honly : ∀ h ∈ db0.habits, h.userId = uid → isDueToday h tref = true → h.id = i ∨ h.id = j)
    (X Y : Request) (db : Db) (inv : RaceInv db0 uid c tref i j X Y db) :
    RaceInv db0 uid c tref i j (stepRequest x db X).2 Y (stepRequest x db X).1 := by
  obtain ⟨hk, hagg, hown, hoth⟩ := inv
  cases X with
  | start =>
    obtain ⟨h, hh, hid⟩ := findHabit_of_keys db db0 hk i uid h0 hf0
    have hs : stepRequest x db Request.start = (db, Request.found h) := by
      simp only [stepRequest, hxi, hxu, hh]
    rw [hs]
    exact ⟨hk, hagg, hid, hoth⟩
  | found habit =>
    have hid : habit.id = i := hown
    have hnew : hasCompletionToday (createCompletion db habit.id x.userId x.createdAt) i tref
        = true := by
      rw [hasCompletionToday_createCompletion]
      simp [hid, hw1, hw2]
    refine ⟨hk, hagg, ⟨hid, hnew⟩, ?_⟩
    refine localInv_mono db _ c tref j i _ _ Y ?_ (fun e => e) hoth
    intro k hkc
    show hasCompletionToday (createCompletion db habit.id x.userId x.createdAt) k tref = true
    rw [hasCompletionToday_createCompletion, hkc]
    rfl
  | created habit =>
    refine ⟨(keys_incrementStreak db habit.id).trans hk, hagg, hown.2, ?_⟩
    exact localInv_mono db _ c tref j i _ _ Y (fun _ e => e) (fun e => e) hoth
  | updated uh =>
    obtain ⟨e1, e2⟩ := afterLookups_isDone uh (todaysHabits db x.userId (getDay x.now)) []
    refine ⟨hk, ?_, ?_, ?_⟩
    · show aggInv _ c (afterLookups uh _ []).isDone (afterLookups uh _ []).failed _ _
      rw [e1, e2]
      exact hagg
    · refine localInv_afterLookups db c tref i j _ uh _ [] hown ?_
      rw [hxu]
      exact todays_ids_of_keys db db0 hk uid i j tref x.now hday honly
    · show localInv db c tref j i (afterLookups uh _ []).isDone Y
      rw [e1]
      exact hoth
  | looking uh pending flags =>
    cases pending with
    | nil => exact ⟨hk, hagg, hown.1, hoth⟩
    | cons h rest =>
      have hflag : habitsWithStatus db [h] (startOfDay x.now) (addDay (startOfDay x.now))
          = [hasCompletionToday db h.id tref] := by
        rw [lookup_flag, hasCompletionToday_same_day db h.id x.now tref hday]
      obtain ⟨e1, e2⟩ := afterLookups_isDone uh rest (flags ++ [hasCompletionToday db h.id tref])
      have hstep : stepRequest x db (Request.looking uh (h :: rest) flags)
          = (db, afterLookups uh rest (flags ++ [hasCompletionToday db h.id tref])) := by
        simp only [stepRequest, hflag]
      rw [hstep]
      refine ⟨hk, ?_, ?_, ?_⟩
      · show aggInv _ c (afterLookups uh rest _).isDone (afterLookups uh rest _).failed _ _
        rw [e1, e2]
        refine aggInv_setFailed _ c _ (flags.any (fun d => d == false)) _ _ _ ?_ hagg
        intro hany
        rw [List.any_append, Bool.or_eq_true] at hany
        rcases hany with hany | hany
        · exact Or.inl hany
        · right
          have hst : hasCompletionToday db h.id tref = false := by
            simpa using hany
          rcases hown.2 h (List.mem_cons_self h rest) with hi | hj
          · rw [hi, hown.1] at hst; cases hst
          · rw [hj] at hst
            exact localInv_has db c tref j i _ Y hoth hst
      · exact localInv_afterLookups db c tref i j _ uh rest _ hown.1
          (fun h2 hm => hown.2 h2 (List.mem_cons_of_mem h hm))
      · show localInv db c tref j i (afterLookups uh rest _).isDone Y
        rw [e1]
        exact hoth
  | checked uh ck =>
    obtain ⟨⟨u, hu, h1, h2, h3, h4, h5, h6, h7⟩, hnb⟩ := hagg
    cases ck with
    | false =>
      have hs : stepRequest x db (Request.checked uh false) = (db, Request.userRead uh u) := by
        simp only [stepRequest, hxu, hu]
        rfl
      rw [hs]
      refine ⟨hk, ⟨⟨u, hu, h1, h2, h3, h4, h5, h6, h7⟩, hnb⟩, ⟨hown, h1, ?_, ?_⟩, hoth⟩
      · by_contra hgt
        have : u.currentStreak = c + 2 := by omega
        have := (h3 this).1
        cases this
      · intro e
        rcases h4 (by omega) with hd | hd
        · cases hd
        · exact hd
    | true =>
      have hs : stepRequest x db (Request.checked uh true)
          = (db, Request.done (Response.ok uh)) := by
        simp only [stepRequest, hxu, hu]
        rfl
      rw [hs]
      refine ⟨hk, ⟨⟨u, hu, h1, h2, ?_, fun _ => Or.inl rfl, fun _ d => h6 rfl d, ?_, ?_⟩, ?_⟩,
        hown, ?_⟩
      · intro e
        have := (h3 e).1
        cases this
      · intro e
        cases e
      · intro e _
        exact absurd ⟨rfl, e⟩ hnb
      · intro e
        cases e.1
      · exact localInv_mono db db c tref j i _ _ Y (fun _ e => e) (fun e => by cases e) hoth
  | userRead uh v =>
    obtain ⟨⟨u, hu, h1, h2, h3, h4, h5, h6, h7⟩, hnb⟩ := hagg
    obtain ⟨hhas, hv1, hv2, hv3⟩ := hown
    have hfu := findUser_updateUserStreak db uid (v.currentStreak + 1) v.longestStreak u hu
    have hs : stepRequest x db (Request.userRead uh v)
        = (updateUserStreak db uid (v.currentStreak + 1) v.longestStreak,
            Request.done (Response.ok uh)) := by
      simp only [stepRequest, hxu]
    rw [hs]
    refine ⟨hk, ⟨⟨_, hfu, ?_, ?_, ?_, fun _ => Or.inl rfl, ?_, ?_, ?_⟩, ?_⟩, hhas, ?_⟩
    · show c ≤ v.currentStreak + 1
      omega
    · show v.currentStreak + 1 ≤ c + 2
      omega
    · intro e
      have e2 : v.currentStreak + 1 = c + 2 := e
      exact ⟨rfl, hv3 (by omega)⟩
    · intro _ _
      show c + 1 ≤ v.currentStreak + 1
      omega
    · intro e
      cases e
    · intro _ _
      show c + 1 ≤ v.currentStreak + 1
      omega
    · intro e
      cases e.1
    · exact localInv_mono db _ c tref j i _ _ Y (fun _ e => e) (fun _ => rfl) hoth
  | done r => exact ⟨hk, hagg, hown, hoth⟩

theorem stepRace_inv (db0 : Db) (uid : Nat) (c : Int) (a b : Call)
    (hbu : b.userId = uid) (hau : a.userId = uid) (hday : startOfDay b.now = startOfDay a.now)
    (hwa1 : startOfDay a.now ≤ a.createdAt) (hwa2 : a.createdAt < startOfDay a.now + msPerDay)
    (hwb1 : startOfDay a.now ≤ b.createdAt) (hwb2 : b.createdAt < startOfDay a.now + msPerDay)
    (ha hb : Habit) (hfa : findHabit db0 a.habitId uid = some ha)
    (hfb : findHabit db0 b.habitId uid = some hb)
    (honly : ∀ h ∈ db0.habits, h.userId = uid → isDueToday h a.now = true →
      h.id = a.habitId ∨ h.id = b.habitId)
    (s : Race) (pick : Bool)
    (inv : RaceInv db0 uid c a.now a.habitId b.habitId s.first s.second s.db) :
    RaceInv db0 uid c a.now a.habitId b.habitId (stepRace a b s pick).first
      (stepRace a b s pick).second (stepRace a b s pick).db := by
  cases pick with
  | true =>
    exact stepRequest_inv db0 uid c a.now a.habitId b.habitId a hau rfl rfl hwa1 hwa2 ha hfa
      honly s.first s.second s.db inv
  | false =>
    exact (stepRequest_inv db0 uid c a.now b.habitId a.habitId b hbu rfl hday hwb1 hwb2 hb hfb
      (fun h hm h1 h2 => (honly h hm h1 h2).symm) s.second s.first s.db inv.symm).symm

theorem foldl_stepRace_inv (db0 : Db) (uid : Nat) (c : Int) (a b : Call)
    (hbu : b.userId = uid) (hau : a.userId = uid) (hday : startOfDay b.now = startOfDay a.now)
    (hwa1 : startOfDay a.now ≤ a.createdAt) (hwa2 : a.createdAt < startOfDay a.now + msPerDay)
    (hwb1 : startOfDay a.now ≤ b.createdAt) (hwb2 : b.createdAt < startOfDay a.now + msPerDay)
    (ha hb : Habit) (hfa : findHabit db0 a.habitId uid = some ha)
    (hfb : findHabit db0 b.habitId uid = some hb)
    (honly : ∀ h ∈ db0.habits, h.userId = uid → isDueToday h a.now = true →
      h.id = a.habitId ∨ h.id = b.habitId)
    (schedule : List Bool) (s : Race)
    (inv : RaceInv db0 uid c a.now a.habitId b.habitId s.first s.second s.db) :
    RaceInv db0 uid c a.now a.habitId b.habitId (schedule.foldl (stepRace a b) s).first
      (schedule.foldl (stepRace a b) s).second (schedule.foldl (stepRace a b) s).db := by
  induction schedule generalizing s with
  | nil => exact inv
  | cons pick rest ih =>
    exact ih (stepRace a b s pick)
      (stepRace_inv db0 uid c a b hbu hau hday hwa1 hwa2 hwb1 hwb2 ha hb hfa hfb honly s pick inv)

theorem raceInv_start (db0 : Db) (uid : Nat) (tref i j : Nat) (user : User)
    (hu : findUser db0 uid = some user) :
    RaceInv db0 uid user.currentStreak tref i j Request.start Request.start db0 := by
  refine ⟨rfl, ⟨⟨user, hu, le_refl _, by omega, ?_, ?_, ?_, ?_, ?_⟩, ?_⟩, trivial, trivial⟩
  · intro e; omega
  · intro e; omega
  · intro e; cases e
  · intro e; cases e
  · intro e; cases e
  · intro e; cases e.1

theorem stepRequest_habits_length (x : Call) (db : Db) (X : Request) :
    (stepRequest x db X).1.habits.length = db.habits.length := by
  cases X with
  | start =>
    simp only [stepRequest]
    split <;> rfl
  | found habit => rfl
  | created habit =>
    simp only [stepRequest, incrementStreak, List.length_map]
  | updated uh => rfl
  | looking uh pending flags =>
    cases pending <;> rfl
  | checked uh ck =>
    simp only [stepRequest]
    split
    · rfl
    · split <;> rfl
  | userRead uh v => rfl
  | done r => rfl

theorem stepsLeft_afterLookups (n : Nat) (uh : Option Habit) (pending : List Habit)
    (flags : List Bool) : stepsLeft n (afterLookups uh pending flags) ≤ pending.length + 3 := by
  cases pending with
  | nil => show 2 ≤ 0 + 3; omega
  | cons h rest => exact le_refl _

theorem length_todaysHabits (db : Db) (userId day : Nat) :
    (todaysHabits db userId day).length ≤ db.habits.length := by
  unfold todaysHabits
  exact (List.length_filter_le _ _).trans (List.length_filter_le _ _)

theorem stepRequest_stepsLeft (x : Call) (db : Db) (X : Request) (n : Nat)
    (hn : db.habits.length ≤ n) :
    stepsLeft n (stepRequest x db X).2 ≤ stepsLeft n X - 1 := by
  cases X with
  | start =>
    simp only [stepRequest]
    split
    · show 0 ≤ n + 7 - 1
      omega
    · show n + 6 ≤ n + 7 - 1
      omega
  | found habit => show n + 5 ≤ n + 6 - 1; omega
  | created habit => show n + 4 ≤ n + 5 - 1; omega
  | updated uh =>
    have h1 := stepsLeft_afterLookups n uh (todaysHabits db x.userId (getDay x.now)) []
    have h2 := length_todaysHabits db x.userId (getDay x.now)
    show stepsLeft n (afterLookups uh (todaysHabits db x.userId (getDay x.now)) []) ≤ n + 4 - 1
    omega
  | looking uh pending flags =>
    cases pending with
    | nil => show 2 ≤ 0 + 3 - 1; omega
    | cons h rest =>
      have h1 := stepsLeft_afterLookups n uh rest
        (flags ++ habitsWithStatus db [h] (startOfDay x.now) (addDay (startOfDay x.now)))
      show stepsLeft n (afterLookups uh rest _) ≤ (rest.length + 1) + 3 - 1
      omega
  | checked uh ck =>
    simp only [stepRequest]
    split
    · show 0 ≤ 2 - 1
      omega
    · split
      · show 1 ≤ 2 - 1
        omega
      · show 0 ≤ 2 - 1
        omega
  | userRead uh v => show 0 ≤ 1 - 1; omega
  | done r => show 0 ≤ 0 - 1; omega

theorem isDone_of_stepsLeft (n : Nat) (X : Request) (h : stepsLeft n X = 0) :
    X.isDone = true := by
  cases X with
  | done r => rfl
  | start => simp [stepsLeft] at h
  | found habit => simp [stepsLeft] at h
  | created habit => simp [stepsLeft] at h
  | updated uh => simp [stepsLeft] at h
  | looking uh pending flags => simp [stepsLeft] at h
  | checked uh ck => simp [stepsLeft] at h
  | userRead uh v => simp [stepsLeft] at h

theorem foldl_stepsLeft (a b : Call) (n : Nat) (schedule : List Bool) (s : Race)
    (hn : s.db.habits.length ≤ n) :
    stepsLeft n (schedule.foldl (stepRace a b) s).first
        ≤ stepsLeft n s.first - schedule.count true ∧
    stepsLeft n (schedule.foldl (stepRace a b) s).second
        ≤ stepsLeft n s.second - schedule.count false := by
  induction schedule generalizing s with
  | nil => exact ⟨by simp, by simp⟩
  | cons pick rest ih =>
    cases pick with
    | true =>
      have hn2 : (stepRace a b s true).db.habits.length ≤ n := by
        show (stepRequest a s.db s.first).1.habits.length ≤ n
        rw [stepRequest_habits_length]
        exact hn
      obtain ⟨h1, h2⟩ := ih (stepRace a b s true) hn2
      have h3 := stepRequest_stepsLeft a s.db s.first n hn
      have e1 : (stepRace a b s true).first = (stepRequest a s.db s.first).2 := rfl
      have e2 : (stepRace a b s true).second = s.second := rfl
      rw [e1] at h1
      rw [e2] at h2
      have c1 : (true :: rest).count true = rest.count true + 1 := by simp
      have c2 : (true :: rest).count false = rest.count false := by simp
      rw [List.foldl_cons, c1, c2]
      constructor <;> omega
    | false =>
      have hn2 : (stepRace a b s false).db.habits.length ≤ n := by
        show (stepRequest b s.db s.second).1.habits.length ≤ n
        rw [stepRequest_habits_length]
        exact hn
      obtain ⟨h1, h2⟩ := ih (stepRace a b s false) hn2
      have h3 := stepRequest_stepsLeft b s.db s.second n hn
      have e1 : (stepRace a b s false).first = s.first := rfl
      have e2 : (stepRace a b s false).second = (stepRequest b s.db s.second).2 := rfl
      rw [e1] at h1
      rw [e2] at h2
      have c1 : (false :: rest).count true = rest.count true := by simp
      have c2 : (false :: rest).count false = rest.count false + 1 := by simp
      rw [List.foldl_cons, c1, c2]
      constructor <;> omega

/-! ## One request alone is the sequential handler -/

theorem runAlone_done (c : Call) (n : Nat) (d : Db) (r : Response) :
    runAlone c n (d, Request.done r) = (d, Request.done r) := by
  induction n with
  | zero => rfl
  | succ n ih => exact ih

theorem runAlone_add (c : Call) (m n : Nat) (s : Db × Request) :
    runAlone c (m + n) s = runAlone c n (runAlone c m s) := by
  induction m generalizing s with
  | zero => rw [Nat.zero_add]; rfl
  | succ m ih =>
    rw [Nat.succ_add]
    exact ih (stepRequest c s.1 s.2)

theorem runAlone_lookups (c : Call) (db : Db) (uh : Option Habit) (pending : List Habit)
    (flags : List Bool) :
    runAlone c pending.length (db, afterLookups uh pending flags)
      = (db, Request.checked uh
          ((flags ++ habitsWithStatus db pending (startOfDay c.now)
            (addDay (startOfDay c.now))).any (fun d => d == false))) := by
  induction pending generalizing flags with
  | nil => simp [runAlone, afterLookups, habitsWithStatus]
  | cons h rest ih =>
    show runAlone c rest.length (db, afterLookups uh rest
      (flags ++ habitsWithStatus db [h] (startOfDay c.now) (addDay (startOfDay c.now)))) = _
    rw [ih]
    simp [habitsWithStatus]

/-- A request that takes all its steps with no other request in between ends
in the state and with the response of the sequential handler. -/
theorem runAlone_eq_completeHabit (c : Call) (db : Db) :
    runAlone c (db.habits.length + 7) (db, Request.start)
      = ((completeHabit db c.userId c.habitId c.createdAt c.now).2,
          Request.done (completeHabit db c.userId c.habitId c.createdAt c.now).1) := by
  unfold completeHabit completeHabitWith
  cases hh : findHabit db c.habitId c.userId with
  | none =>
    have h1 : runAlone c 1 (db, Request.start) = (db, Request.done Response.notFound) := by
      simp [runAlone, stepRequest, hh]
    rw [Nat.add_comm, show 7 + db.habits.length = 1 + (6 + db.habits.length) by omega,
      runAlone_add, h1, runAlone_done]
  | some habit =>
    have hlen : (todaysHabits (incrementStreak (createCompletion db habit.id c.userId c.createdAt)
        habit.id) c.userId (getDay c.now)).length ≤ db.habits.length := by
      refine (length_todaysHabits _ _ _).trans ?_
      simp [incrementStreak, createCompletion]
    have h4 : runAlone c 4 (db, Request.start)
        = (incrementStreak (createCompletion db habit.id c.userId c.createdAt) habit.id,
            afterLookups
              (findHabitById (incrementStreak (createCompletion db habit.id c.userId c.createdAt)
                habit.id) habit.id)
              (todaysHabits (incrementStreak (createCompletion db habit.id c.userId c.createdAt)
                habit.id) c.userId (getDay c.now)) []) := by
      simp [runAlone, stepRequest, hh]
    obtain ⟨k, hk⟩ := Nat.exists_eq_add_of_le hlen
    rw [show db.habits.length + 7
        = 4 + ((todaysHabits (incrementStreak (createCompletion db habit.id c.userId c.createdAt)
            habit.id) c.userId (getDay c.now)).length + (2 + (k + 1))) by omega,
      runAlone_add, h4, runAlone_add, runAlone_lookups, runAlone_add]
    simp only [List.nil_append]
    cases hu : findUser (incrementStreak (createCompletion db habit.id c.userId c.createdAt)
        habit.id) c.userId with
    | none =>
      simp [runAlone, stepRequest, hu, runAlone_done]
    | some user =>
      cases hck : (habitsWithStatus
          (incrementStreak (createCompletion db habit.id c.userId c.createdAt) habit.id)
          (todaysHabits (incrementStreak (createCompletion db habit.id c.userId c.createdAt)
            habit.id) c.userId (getDay c.now))
          (startOfDay c.now) (addDay (startOfDay c.now))).any (fun d => d == false) with
      | true => simp [runAlone, stepRequest, hu, runAlone_done]
      | false => simp [runAlone, stepRequest, hu, runAlone_done]

/-! ## Two completion requests in flight: the result -/

/-- C12 (as the code behaves). Two completion requests of one user, for two of
the user's habits, the only ones that can be due today, both stamped today: in
every interleaving of their awaited calls in which both requests have answered,
`currentStreak` has advanced by one or by two, never by zero; and every schedule
that gives each request `habits.length + 7` steps lets both answer. -/
theorem race_advances_once_or_twice (db : Db) (a b : Call) (ha hb : Habit) (user : User)
    (hbu : b.userId = a.userId)
    (hfa : findHabit db a.habitId a.userId = some ha)
    (hfb : findHabit db b.habitId a.userId = some hb)
    (hu : findUser db a.userId = some user)
    (honly : ∀ h ∈ db.habits, h.userId = a.userId → isDueToday h a.now = true →
      h.id = a.habitId ∨ h.id = b.habitId)
    (hday : startOfDay b.now = startOfDay a.now)
    (hwa1 : startOfDay a.now ≤ a.createdAt) (hwa2 : a.createdAt < startOfDay a.now + msPerDay)
    (hwb1 : startOfDay a.now ≤ b.createdAt) (hwb2 : b.createdAt < startOfDay a.now + msPerDay) :
    (∀ schedule : List Bool,
      (runRace a b db schedule).first.isDone = true →
      (runRace a b db schedule).second.isDone = true →
      ∃ u, findUser (runRace a b db schedule).db a.userId = some u ∧
        (u.currentStreak = user.currentStreak + 1 ∨
          u.currentStreak = user.currentStreak + 2)) ∧
    (∀ schedule : List Bool,
      db.habits.length + 7 ≤ schedule.count true →
      db.habits.length + 7 ≤ schedule.count false →
      (runRace a b db schedule).first.isDone = true ∧
      (runRace a b db schedule).second.isDone = true) := by
  constructor
  · intro schedule hd1 hd2
    have inv := foldl_stepRace_inv db a.userId user.currentStreak a b hbu rfl hday
      hwa1 hwa2 hwb1 hwb2 ha hb hfa hfb honly schedule ⟨db, Request.start, Request.start⟩
      (raceInv_start db a.userId a.now a.habitId b.habitId user hu)
    obtain ⟨⟨u, hfu, h1, h2, -, -, h5, -, -⟩, -⟩ := inv.agg
    refine ⟨u, hfu, ?_⟩
    have h6 := h5 hd1 hd2
    omega
  · intro schedule hc1 hc2
    obtain ⟨h1, h2⟩ := foldl_stepsLeft a b db.habits.length schedule
      ⟨db, Request.start, Request.start⟩ (le_refl _)
    have h3 : stepsLeft db.habits.length (runRace a b db schedule).first
        ≤ db.habits.length + 7 - schedule.count true := h1
    have h4 : stepsLeft db.habits.length (runRace a b db schedule).second
        ≤ db.habits.length + 7 - schedule.count false := h2
    exact ⟨isDone_of_stepsLeft db.habits.length _ (by omega),
      isDone_of_stepsLeft db.habits.length _ (by omega)⟩

/-- C12 (counterexample). On `twoDue`, with habits 10 and 11 both due and both
incomplete, the schedule `writesFirst` lets both requests answer with success and
takes `currentStreak` from 0 to 2. -/
theorem race_two_advances_counterexample :
    findUser twoDue 1 = some ⟨1, 0, 0⟩ ∧
    todaysHabits twoDue 1 (getDay t0) = [⟨10, 1, everyDay, 0⟩, ⟨11, 1, everyDay, 0⟩] ∧
    hasCompletionToday twoDue 10 t0 = false ∧
    hasCompletionToday twoDue 11 t0 = false ∧
    (runRace call10 call11 twoDue writesFirst).first
      = Request.done (Response.ok (some ⟨10, 1, everyDay, 1⟩)) ∧
    (runRace call10 call11 twoDue writesFirst).second
      = Request.done (Response.ok (some ⟨11, 1, everyDay, 1⟩)) ∧
    findUser (runRace call10 call11 twoDue writesFirst).db 1 = some ⟨1, 2, 2⟩ := by
  decide

/-- Instance of C12 on `twoDue`: with the requests one after the other both
answer and `currentStreak` ends at 1 or 2. -/
theorem race_advances_once_or_twice_witness :
    findHabit twoDue 10 1 = some ⟨10, 1, everyDay, 0⟩ ∧
    findHabit twoDue 11 1 = some ⟨11, 1, everyDay, 0⟩ ∧
    findUser twoDue 1 = some ⟨1, 0, 0⟩ ∧
    (runRace call10 call11 twoDue oneAfterTheOther).first.isDone = true ∧
    (runRace call10 call11 twoDue oneAfterTheOther).second.isDone = true ∧
    ∃ u, findUser (runRace call10 call11 twoDue oneAfterTheOther).db 1 = some u ∧
      (u.currentStreak = 0 + 1 ∨ u.currentStreak = 0 + 2) :=
  ⟨by decide, by decide, by decide, by decide, by decide,
    (race_advances_once_or_twice twoDue call10 call11 ⟨10, 1, everyDay, 0⟩ ⟨11, 1, everyDay, 0⟩
      ⟨1, 0, 0⟩ rfl (by decide) (by decide) (by decide) (by decide) (by decide) (by decide)
      (by decide) (by decide) (by decide)).1 oneAfterTheOther (by decide) (by decide)⟩

end HabitTracker
